import Mathlib

/-!
Verification of the maze-solver core (the `Node` and `Maze` classes of the
notebook source): a best-first search over a 2-D character grid with two
selectable strategies, a `heapq`-backed frontier of `Node` objects, a
best-cost dictionary `visited`, and an `all_visited` set returned to the
caller together with the reconstructed path.

The embedding below translates the source faithfully:
  * coordinates are `Int × Int` (Python ints; the neighbour offsets can go
    negative before the bounds check filters them out);
  * `Node` is the parent-linked search node; the source only ever builds the
    start node (no parent, no action) and child nodes (parent and action
    present), which the two constructors mirror;
  * the frontier is a Lean transcription of CPython's `heapq` algorithms
    (`_siftdown`, `_siftup`, `heappush`, `heappop`) over `List Node`,
    ordered by `Node.__lt__`, i.e. by `cost + heuristic`;
  * the solve loop takes explicit fuel (the source loop terminates; a fuel
    bound sufficient for every run is proved below) and additionally records
    ghost traces of every heap push and every heap pop — pure bookkeeping
    that does not influence the computation.
-/

set_option linter.unusedVariables false

/-- Search node: `state`, `parent`, `action`, `cost` (g) and `heuristic` (h).
The source constructs nodes of exactly two shapes: the start node with
`parent=None, action=None, cost=0` and neighbour nodes with a parent and an
action; the two constructors mirror those shapes. -/
inductive Node where
  | start (state : Int × Int) (cost : Nat) (heuristic : Nat)
  | child (state : Int × Int) (parent : Node) (action : String) (cost : Nat)
      (heuristic : Nat)
deriving DecidableEq, Repr

/-- `self.state` of a node. -/
def Node.state : Node → Int × Int
  | .start s _ _ => s
  | .child s _ _ _ _ => s

/-- `self.cost` of a node. -/
def Node.cost : Node → Nat
  | .start _ c _ => c
  | .child _ _ _ c _ => c

/-- `self.heuristic` of a node. -/
def Node.heuristic : Node → Nat
  | .start _ _ h => h
  | .child _ _ _ _ h => h

/-- The quantity `self.cost + self.heuristic` that `Node.__lt__` compares:
`a < b` in the source iff `a.key < b.key`. -/
def Node.key (n : Node) : Nat := n.cost + n.heuristic

/-- Arbitrary node used as the (never reached) default of list indexing. -/
def nodeDflt : Node := .start (0, 0) 0 0

/-- CPython `heapq._siftdown(heap, startpos, pos)` with `newitem = heap[pos]`
held in hand: move `newitem` toward the root while it is `<` its parent.
The structural `fuel` argument only bounds the recursion depth so the kernel
can evaluate the function; every call below passes `fuel = pos`, and since
`pos` drops by at least one per step the `0` case is then reached only with
`pos = 0`, where its result coincides with the loop-exit branch — the fueled
function is extensionally the CPython loop. -/
def siftdownAux (startpos : Nat) : Nat → List Node → Nat → Node → List Node
  | 0, heap, pos, newitem => heap.set pos newitem
  | fuel + 1, heap, pos, newitem =>
    if startpos < pos then
      if newitem.key < (heap.getD ((pos - 1) / 2) nodeDflt).key then
        siftdownAux startpos fuel
          (heap.set pos (heap.getD ((pos - 1) / 2) nodeDflt)) ((pos - 1) / 2)
          newitem
      else heap.set pos newitem
    else heap.set pos newitem

/-- CPython `heapq._siftup(heap, pos)` with `newitem = heap[pos]` held in
hand: bubble the hole at `pos` down to a leaf along the smaller-child path,
then sift the held item back up.  As in `siftdownAux`, `fuel` is a structural
recursion bound: the call below passes `fuel = heap.length`, `pos` grows by at
least one per step and the loop guard needs `pos < heap.length`, so the `0`
case (written as the loop-exit branch) is extensionally exact. -/
def siftupAux (startpos : Nat) : Nat → List Node → Nat → Node → List Node
  | 0, heap, pos, newitem =>
    siftdownAux startpos pos (heap.set pos newitem) pos newitem
  | fuel + 1, heap, pos, newitem =>
    if 2 * pos + 1 < heap.length then
      if 2 * pos + 2 < heap.length ∧
          ¬ (heap.getD (2 * pos + 1) nodeDflt).key <
            (heap.getD (2 * pos + 2) nodeDflt).key then
        siftupAux startpos fuel
          (heap.set pos (heap.getD (2 * pos + 2) nodeDflt)) (2 * pos + 2)
          newitem
      else
        siftupAux startpos fuel
          (heap.set pos (heap.getD (2 * pos + 1) nodeDflt)) (2 * pos + 1)
          newitem
    else siftdownAux startpos pos (heap.set pos newitem) pos newitem

/-- CPython `heapq.heappush`. -/
def heappush (heap : List Node) (item : Node) : List Node :=
  siftdownAux 0 heap.length (heap ++ [item]) heap.length item

/-- CPython `heapq.heappop`; `none` on the empty heap (where CPython raises
`IndexError`; the source only pops inside `while frontier:`). -/
def heappop (heap : List Node) : Option (Node × List Node) :=
  match heap with
  | [] => none
  | x :: xs =>
    let lastelt := (x :: xs).getLastD nodeDflt
    match (x :: xs).dropLast with
    | [] => some (lastelt, [])
    | y :: ys =>
      some (y, siftupAux 0 (y :: ys).length ((y :: ys).set 0 lastelt) 0 lastelt)

/-- The `Maze` object after `__init__`: the parsed character grid, its
`shape`, and the detected start/goal coordinates. -/
structure Maze where
  maze : List (List Char)
  height : Nat
  width : Nat
  start : Int × Int
  goal : Int × Int
deriving DecidableEq, Repr

/-- `self.maze[i, j]` (only consulted after a bounds check in the source;
the defaults are never reached there). -/
def Maze.cellAt (m : Maze) (c : Int × Int) : Char :=
  (m.maze.getD c.1.toNat []).getD c.2.toNat ' '

/-- The filter of `Maze.neighbors`: in bounds and not a wall
(`0 <= ni < height and 0 <= nj < width and maze[ni, nj] != '#'`). -/
def Maze.inBoundsOpen (m : Maze) (c : Int × Int) : Bool :=
  decide (0 ≤ c.1) && decide (c.1 < (m.height : Int)) &&
  decide (0 ≤ c.2) && decide (c.2 < (m.width : Int)) &&
  decide (m.cellAt c ≠ '#')

/-- `Maze.neighbors`: the four candidate moves in the source's fixed order
right, down, left, up, filtered to in-bounds non-wall cells. -/
def Maze.neighbors (m : Maze) (s : Int × Int) : List (String × (Int × Int)) :=
  [("right", (s.1, s.2 + 1)), ("down", (s.1 + 1, s.2)),
   ("left", (s.1, s.2 - 1)), ("up", (s.1 - 1, s.2))].filter
    (fun p => m.inBoundsOpen p.2)

/-- `Maze.heuristic`: Manhattan distance to the goal. -/
def Maze.heuristic (m : Maze) (s : Int × Int) : Nat :=
  (s.1 - m.goal.1).natAbs + (s.2 - m.goal.2).natAbs

/-- The mutable state of one `solve` call: the frontier heap, the best-cost
dictionary `visited`, the `all_visited` set (as an insertion-ordered
duplicate-free list), plus ghost traces of every push and of every pop
(each pop is recorded with the frontier it popped from). -/
structure SState where
  frontier : List Node
  visited : Int × Int → Option Nat
  allVisited : List (Int × Int)
  pushesG : List Node
  popsG : List (List Node × Node)

/-- Kernel-computable model of Python's `str.lower()` (they agree on the
ASCII selectors this program compares against: both map cased letters to
lower case and leave other characters unchanged). -/
def strLower (s : String) : String :=
  String.mk (s.data.map Char.toLower)

/-- One iteration of `for action, neighbor_state in self.neighbors(...)`:
the cost-improvement test, the `visited` / `all_visited` updates, the dead
per-strategy `priority` computation of the source (assigned, never used:
`heappush` orders by `Node.__lt__` alone), the node construction and the
push. -/
def expandOne (m : Maze) (algorithm : String) (cur : Node) (st : SState)
    (step : String × (Int × Int)) : SState :=
  let newCost := cur.cost + 1
  let improves :=
    match st.visited step.2 with
    | none => true
    | some v => decide (newCost < v)
  if improves then
    let priority :=
      if strLower algorithm = "greedy" then m.heuristic step.2
      else newCost + m.heuristic step.2
    let nbNode := Node.child step.2 cur step.1 newCost (m.heuristic step.2)
    { frontier := heappush st.frontier nbNode
      visited := fun x => if x = step.2 then some newCost else st.visited x
      allVisited :=
        if step.2 ∈ st.allVisited then st.allVisited
        else st.allVisited ++ [step.2]
      pushesG := st.pushesG ++ [nbNode]
      popsG := st.popsG }
  else st

/-- The states of the reconstructed path after the start cell: the
`while node.parent is not None` walk collects states child-first and the
final `reverse` flips them. -/
def ancStates : Node → List (Int × Int)
  | .start _ _ _ => []
  | .child s p _ _ _ => ancStates p ++ [s]

/-- The actions of the reconstructed path, in start-to-goal order. -/
def ancActions : Node → List String
  | .start _ _ _ => []
  | .child _ p a _ _ => ancActions p ++ [a]

/-- A successful solve: `((path, actions), all_visited)` plus the ghost
push/pop traces. -/
structure SolveOutcome where
  path : List (Int × Int)
  actions : List String
  allVisited : List (Int × Int)
  pushesG : List Node
  popsG : List (List Node × Node)
deriving DecidableEq, Repr

/-- Result of the search loop: goal found, or frontier exhausted
(`raise ValueError("No path exists from start to goal")`), with ghost
traces in both cases. -/
inductive SolveRes where
  | found (outcome : SolveOutcome)
  | noPath (allVisited : List (Int × Int)) (pushesG : List Node)
      (popsG : List (List Node × Node))
deriving DecidableEq, Repr

/-- The `while frontier:` loop of `Maze.solve`, with explicit fuel (`none`
means the fuel ran out; `fuelBound` below is proved sufficient). -/
def solveLoop (m : Maze) (algorithm : String) :
    Nat → SState → Option SolveRes
  | 0, _ => none
  | fuel + 1, st =>
    match heappop st.frontier with
    | none => some (.noPath st.allVisited st.pushesG st.popsG)
    | some (cur, rest) =>
      if cur.state = m.goal then
        some (.found
          { path := m.start :: ancStates cur
            actions := ancActions cur
            allVisited := st.allVisited
            pushesG := st.pushesG
            popsG := st.popsG ++ [(st.frontier, cur)] })
      else
        solveLoop m algorithm fuel
          ((m.neighbors cur.state).foldl (expandOne m algorithm cur)
            { st with frontier := rest, popsG := st.popsG ++ [(st.frontier, cur)] })

/-- The loop state right before the first iteration: the start node pushed,
`visited = {start: 0}`, `all_visited = {start}`. -/
def initState (m : Maze) : SState :=
  let startNode := Node.start m.start 0 (m.heuristic m.start)
  { frontier := heappush [] startNode
    visited := fun s => if s = m.start then some 0 else none
    allVisited := [m.start]
    pushesG := [startNode]
    popsG := [] }

/-- Fuel sufficient for any run of the loop (proved below): the loop
performs at most `height*width*(height*width+1) + 1` iterations. -/
def fuelBound (m : Maze) : Nat :=
  m.height * m.width * (m.height * m.width + 1) + 2

/-- The search part of `Maze.solve` (after the strategy validation), with
ghost traces. -/
def Maze.solveCore (m : Maze) (algorithm : String) : Option SolveRes :=
  solveLoop m algorithm (fuelBound m) (initState m)

/-- Errors raised by `Maze.solve` (both are `ValueError` in the source). -/
inductive SolveErr where
  | invalidStrategy
  | noPath
deriving DecidableEq, Repr

/-- Decidable equality for `Except` results, so concrete runs can be checked
by `decide`. -/
instance {e a : Type} [DecidableEq e] [DecidableEq a] : DecidableEq (Except e a) :=
  fun x y =>
    match x, y with
    | .error u, .error v =>
      if h : u = v then .isTrue (by rw [h]) else .isFalse (fun hc => h (by cases hc; rfl))
    | .ok u, .ok v =>
      if h : u = v then .isTrue (by rw [h]) else .isFalse (fun hc => h (by cases hc; rfl))
    | .error _, .ok _ => .isFalse (fun hc => Except.noConfusion hc)
    | .ok _, .error _ => .isFalse (fun hc => Except.noConfusion hc)

/-- `Maze.solve(algorithm)`: validate the strategy selector, then run the
search; on success return `((path, actions), all_visited)`. -/
def Maze.solve (m : Maze) (algorithm : String) :
    Option (Except SolveErr ((List (Int × Int) × List String) × List (Int × Int))) :=
  if strLower algorithm ∉ (["a*", "greedy"] : List String) then
    some (.error .invalidStrategy)
  else
    (m.solveCore algorithm).map (fun r =>
      match r with
      | .found o => .ok ((o.path, o.actions), o.allVisited)
      | .noPath _ _ _ => .error .noPath)

/-- Errors of `Maze.__init__`: `badShape` models the failure of
`np.array(...)` / `self.maze.shape` unpacking on an empty or ragged row
list; `missingMarker` is the explicit
`raise ValueError("Maze must include start ('A') and goal ('B') points.")`. -/
inductive MazeErr where
  | badShape
  | missingMarker
deriving DecidableEq, Repr

/-- Kernel-computable model of Python's `str.split('\n')`: cut the character
list at every newline, keeping empty pieces. -/
def splitNl : List Char → List (List Char)
  | [] => [[]]
  | c :: cs =>
    if c = '\n' then [] :: splitNl cs
    else
      match splitNl cs with
      | [] => [[c]]
      | r :: rs => (c :: r) :: rs

/-- The row list `[list(line) for line in maze_str.split('\n') if line.strip()]`
(a line survives the filter iff it is truthy after `strip()`, i.e. contains a
non-whitespace character). -/
def mazeRows (s : String) : List (List Char) :=
  (splitNl s.data).filter (fun line => line.any (fun c => ! c.isWhitespace))

/-- One cell of the start/goal scan of `Maze.__init__`: `'A'` records the
start and `'B'` the goal, a later occurrence overwriting an earlier one. -/
def scanCell (i : Nat) (acc : Option (Int × Int) × Option (Int × Int))
    (jc : Nat × Char) : Option (Int × Int) × Option (Int × Int) :=
  if jc.2 = 'A' then (some ((i : Int), (jc.1 : Int)), acc.2)
  else if jc.2 = 'B' then (acc.1, some ((i : Int), (jc.1 : Int)))
  else acc

/-- One row of the start/goal scan. -/
def scanRow (acc : Option (Int × Int) × Option (Int × Int))
    (ir : Nat × List Char) : Option (Int × Int) × Option (Int × Int) :=
  ir.2.enum.foldl (scanCell ir.1) acc

/-- The full row-major start/goal scan of `Maze.__init__`. -/
def scanMarkers (rows : List (List Char)) :
    Option (Int × Int) × Option (Int × Int) :=
  rows.enum.foldl scanRow (none, none)

/-- `Maze.__init__(maze_str)`. -/
def mazeInit (s : String) : Except MazeErr Maze :=
  match mazeRows s with
  | [] => .error .badShape
  | r0 :: rs =>
    if (r0 :: rs).all (fun r => r.length = r0.length) then
      match scanMarkers (r0 :: rs) with
      | (some st, some gl) =>
        .ok { maze := r0 :: rs, height := (r0 :: rs).length,
              width := r0.length, start := st, goal := gl }
      | _ => .error .missingMarker
    else .error .badShape

/-- Well-formedness of a constructed maze (established by `mazeInit`):
`shape` agrees with the row list, rows are equal-width, start and goal are
the in-bounds positions of an `'A'` and a `'B'`. -/
structure Maze.WF (m : Maze) : Prop where
  heightEq : m.height = m.maze.length
  rowsEq : ∀ r ∈ m.maze, r.length = m.width
  startRow0 : 0 ≤ m.start.1
  startRow : m.start.1 < (m.height : Int)
  startCol0 : 0 ≤ m.start.2
  startCol : m.start.2 < (m.width : Int)
  goalRow0 : 0 ≤ m.goal.1
  goalRow : m.goal.1 < (m.height : Int)
  goalCol0 : 0 ≤ m.goal.2
  goalCol : m.goal.2 < (m.width : Int)
  startCell : m.cellAt m.start = 'A'
  goalCell : m.cellAt m.goal = 'B'

/-- Specification-side notion of a wall-free 4-connected route:
`ReachN m n c` holds when `n` unit steps through `Maze.neighbors` lead from
the start to `c`. -/
inductive ReachN (m : Maze) : Nat → Int × Int → Prop where
  | zero : ReachN m 0 m.start
  | succ {n : Nat} {c c' : Int × Int} {act : String} :
      ReachN m n c → (act, c') ∈ m.neighbors c → ReachN m (n + 1) c'

/-- Ghost pop trace of a loop result. -/
def resPops : Option SolveRes → List (List Node × Node)
  | some (.found o) => o.popsG
  | some (.noPath _ _ p) => p
  | none => []

/-- Ghost push trace of a loop result. -/
def resPushes : Option SolveRes → List Node
  | some (.found o) => o.pushesG
  | some (.noPath _ p _) => p
  | none => []

/-- A node's parent chain is a faithful record of a search step sequence: rooted at
the maze start with cost 0, each child reached by a recorded neighbour move
with cost one more than its parent, heuristics computed by `Maze.heuristic`. -/
def Node.ValidChain (m : Maze) : Node → Prop
  | .start s c h => s = m.start ∧ c = 0 ∧ h = m.heuristic s
  | .child s p act c h =>
      Node.ValidChain m p ∧ (act, s) ∈ m.neighbors p.state ∧
      c = p.cost + 1 ∧ h = m.heuristic s

/-- All states on a node's parent chain, root first. -/
def chainCells : Node → List (Int × Int)
  | .start s _ _ => [s]
  | .child s p _ _ _ => chainCells p ++ [s]

/-- `Node.mem a n`: `a` is `n` itself or one of its ancestors. -/
def Node.mem (a : Node) : Node → Prop
  | .start s c h => a = .start s c h
  | .child s p act c h => a = .child s p act c h ∨ Node.mem a p

/-- Per-node invariant: valid chain, no repeated state on the chain, and
every chain member's state has a recorded best cost at most the member's
cost. -/
def NodeOK (m : Maze) (vis : Int × Int → Option Nat) (n : Node) : Prop :=
  Node.ValidChain m n ∧ (chainCells n).Nodup ∧
  ∀ a, Node.mem a n → ∃ v, vis a.state = some v ∧ v ≤ a.cost

/-- The binary-heap shape invariant of CPython's `heapq`: every non-root
entry is `>=` its parent under the `Node.__lt__` key. -/
def IsHeap (l : List Node) : Prop :=
  ∀ j, 0 < j → j < l.length →
    (l.getD ((j - 1) / 2) nodeDflt).key ≤ (l.getD j nodeDflt).key

/-- Precondition of the upward sift `siftdownAux`: with `item` virtually
placed at `pos`, the list is a heap except along the edge from `pos` to its
parent, and the grandparent of `pos` already dominates the children of
`pos` across the hole. -/
def UpInv (l : List Node) (pos : Nat) (item : Node) : Prop :=
  (∀ j, 0 < j → j < l.length → j ≠ pos →
    ((l.set pos item).getD ((j - 1) / 2) nodeDflt).key ≤
      ((l.set pos item).getD j nodeDflt).key) ∧
  (∀ j, 0 < j → j < l.length → (j - 1) / 2 = pos → 0 < pos →
    ((l.set pos item).getD ((pos - 1) / 2) nodeDflt).key ≤
      ((l.set pos item).getD j nodeDflt).key)

/-- Invariant of the downward phase of `siftupAux`: the list is a heap when
all pairs through the hole at `pos` are ignored, and the parent of `pos`
dominates the children of `pos` across the hole. -/
def DownInv (l : List Node) (pos : Nat) : Prop :=
  (∀ j, 0 < j → j < l.length → j ≠ pos → (j - 1) / 2 ≠ pos →
    (l.getD ((j - 1) / 2) nodeDflt).key ≤ (l.getD j nodeDflt).key) ∧
  (∀ j, 0 < j → j < l.length → (j - 1) / 2 = pos → 0 < pos →
    (l.getD ((pos - 1) / 2) nodeDflt).key ≤ (l.getD j nodeDflt).key)

/-- Monotone evolution of the `visited` dictionary: every key of the older
dictionary is still present and its best cost never went up. -/
def visMono (vNew vOld : Int × Int → Option Nat) : Prop :=
  ∀ x w, vOld x = some w → ∃ wn, vNew x = some wn ∧ wn ≤ w

/-- Core invariant of the solve loop state (everything except the facts
about the pop trace). -/
structure SInvCore (m : Maze) (st : SState) : Prop where
  mset : (st.frontier : Multiset Node) + (st.popsG.map Prod.snd : Multiset Node) =
    (st.pushesG : Multiset Node)
  pushedOK : ∀ n ∈ st.pushesG, NodeOK m st.visited n
  visPushed : ∀ s v, st.visited s = some v → ∃ n ∈ st.pushesG, n.state = s ∧ n.cost = v
  allVis : ∀ s, s ∈ st.allVisited ↔ ∃ n ∈ st.pushesG, Node.state n = s
  heapInv : IsHeap st.frontier
  visStart : st.visited m.start = some 0
  startPushed : Node.start m.start 0 (m.heuristic m.start) ∈ st.pushesG

/-- Master invariant of the solve loop state: the core invariant plus the
guarantees recorded for every pop performed so far (each popped node was a
non-goal node and was fully expanded, so each of its neighbours has a
recorded cost at most one more than the popped node's). -/
structure SInv (m : Maze) (st : SState) extends SInvCore m st : Prop where
  popsOK : ∀ pr ∈ st.popsG, (pr.2 : Node).state ≠ m.goal ∧
    ∀ q ∈ m.neighbors (pr.2 : Node).state,
      ∃ v, st.visited (q.2 : Int × Int) = some v ∧ v ≤ (pr.2 : Node).cost + 1

/-- All in-bounds coordinates of the grid, row-major. -/
def cellsList (m : Maze) : List (Int × Int) :=
  (List.range m.height).flatMap
    (fun (i : Nat) => (List.range m.width).map
      (fun (j : Nat) => ((i : Int), (j : Int))))

/-- Contribution of one cell to the loop's termination measure: its best
recorded cost, or a value larger than any reachable cost when unrecorded. -/
def phiCell (m : Maze) (st : SState) (c : Int × Int) : Nat :=
  match st.visited c with
  | none => m.height * m.width + 1
  | some v => v

/-- Termination measure of the solve loop: strictly decreases at every
iteration that neither returns nor fails. -/
def potential (m : Maze) (st : SState) : Nat :=
  st.frontier.length + ((cellsList m).map (phiCell m st)).sum

/-- Specification-side notion dual to `ReachN`: `ReachTo m c r` holds when
`r` unit steps through `Maze.neighbors` lead from `c` to the goal. -/
inductive ReachTo (m : Maze) : Int × Int → Nat → Prop where
  | here : ReachTo m m.goal 0
  | step {c c' : Int × Int} {n : Nat} {act : String} :
      (act, c') ∈ m.neighbors c → ReachTo m c' n → ReachTo m c (n + 1)

/-- What a successful run of the loop guarantees: the returned path is the
chain of a validly constructed goal node, the visited set is exactly the set
of states of the pushed nodes, it contains the whole path, and the goal
node's cost is at most the length of every route to the goal. -/
def FoundSpec (m : Maze) (o : SolveOutcome) : Prop :=
  ∃ gn : Node, Node.ValidChain m gn ∧ gn.state = m.goal ∧
    o.path = m.start :: ancStates gn ∧ o.actions = ancActions gn ∧
    (∀ s, s ∈ o.allVisited ↔ ∃ n ∈ o.pushesG, Node.state n = s) ∧
    (∀ c ∈ o.path, c ∈ o.allVisited) ∧
    (∀ k, ReachN m k m.goal → gn.cost ≤ k)

/-- What a `NoPathError` outcome of the loop guarantees: the goal is not
reachable, and the visited set is again the set of pushed states. -/
def NoPathSpec (m : Maze) (v : List (Int × Int)) (p : List Node) : Prop :=
  (∀ k, ¬ ReachN m k m.goal) ∧ (∀ s, s ∈ v ↔ ∃ n ∈ p, Node.state n = s)

/-- A concrete 1×2 maze `AB`. -/
def mzAB : Maze :=
  { maze := [['A', 'B']], height := 1, width := 2, start := (0, 0), goal := (0, 1) }

/-- A concrete 1×3 maze `A#B` whose goal is walled off. -/
def mzWall : Maze :=
  { maze := [['A', '#', 'B']], height := 1, width := 3, start := (0, 0), goal := (0, 2) }

/-- The 3×3 scenario grid of the spec: start top-left, goal bottom-right,
single wall in the centre. -/
def mzDiag : Maze :=
  { maze := [['A', '.', '.'], ['.', '#', '.'], ['.', '.', 'B']],
    height := 3, width := 3, start := (0, 0), goal := (2, 2) }

/-! ### Generic list helpers -/

@[simp] theorem nodeState_start (s : Int × Int) (c h : Nat) :
    (Node.start s c h).state = s := rfl

@[simp] theorem nodeState_child (s : Int × Int) (p : Node) (a : String) (c h : Nat) :
    (Node.child s p a c h).state = s := rfl

@[simp] theorem nodeCost_start (s : Int × Int) (c h : Nat) :
    (Node.start s c h).cost = c := rfl

@[simp] theorem nodeCost_child (s : Int × Int) (p : Node) (a : String) (c h : Nat) :
    (Node.child s p a c h).cost = c := rfl

@[simp] theorem nodeHeuristic_start (s : Int × Int) (c h : Nat) :
    (Node.start s c h).heuristic = h := rfl

@[simp] theorem nodeHeuristic_child (s : Int × Int) (p : Node) (a : String) (c h : Nat) :
    (Node.child s p a c h).heuristic = h := rfl

theorem getD_set_self (l : List Node) (i : Nat) (a : Node) (h : i < l.length) :
    (l.set i a).getD i nodeDflt = a := by
  rw [List.getD_eq_getElem _ _ (by simpa using h)]
  simp [List.getElem_set]

theorem getD_set_ne (l : List Node) (i j : Nat) (a : Node) (h : i ≠ j) :
    (l.set i a).getD j nodeDflt = l.getD j nodeDflt := by
  rcases Nat.lt_or_ge j l.length with hj | hj
  · rw [List.getD_eq_getElem _ _ (by simpa using hj),
      List.getD_eq_getElem _ _ hj]
    simp [List.getElem_set, h]
  · rw [List.getD_eq_default _ _ (by simpa using hj), List.getD_eq_default _ _ hj]

theorem msetAddSingle (s : Multiset Node) (x : Node) : s + {x} = x ::ₘ s := by
  rw [add_comm, Multiset.singleton_add]

theorem mset_set (l : List Node) (i : Nat) (a : Node) (h : i < l.length) :
    ((l.set i a : List Node) : Multiset Node) + {l.getD i nodeDflt} =
      (l : Multiset Node) + {a} := by
  induction l generalizing i with
  | nil => simp at h
  | cons x xs ih =>
    cases i with
    | zero =>
      simp only [List.set, List.getD_cons_zero]
      rw [msetAddSingle, msetAddSingle, ← Multiset.cons_coe, ← Multiset.cons_coe,
        Multiset.cons_swap]
    | succ i =>
      simp only [List.set, List.getD_cons_succ]
      rw [← Multiset.cons_coe, ← Multiset.cons_coe, Multiset.cons_add,
        Multiset.cons_add, ih i (by simpa using Nat.lt_of_succ_lt_succ h)]

theorem mset_set_getD (l : List Node) (i : Nat) (a : Node)
    (ha : l.getD i nodeDflt = a) :
    ((l.set i a : List Node) : Multiset Node) = (l : Multiset Node) := by
  rcases Nat.lt_or_ge i l.length with hi | hi
  · have := mset_set l i a hi
    rw [ha] at this
    exact add_right_cancel this
  · rw [List.set_eq_of_length_le hi]

theorem dropLast_getLastD (l : List Node) (h : l ≠ []) :
    l = l.dropLast ++ [l.getLastD nodeDflt] := by
  conv_lhs => rw [← List.dropLast_append_getLast h]
  rw [List.getLastD_eq_getLast?, List.getLast?_eq_getLast _ h]
  simp

/-! ### Heap algorithm: length and multiset preservation -/

theorem siftdownAux_length (s : Nat) :
    ∀ (fuel : Nat) (l : List Node) (pos : Nat) (it : Node),
      (siftdownAux s fuel l pos it).length = l.length := by
  intro fuel
  induction fuel with
  | zero => intro l pos it; simp [siftdownAux]
  | succ fuel ih =>
    intro l pos it
    rw [siftdownAux]
    split
    · split
      · rw [ih]
        simp
      · simp
    · simp

theorem siftupAux_length (s : Nat) :
    ∀ (fuel : Nat) (l : List Node) (pos : Nat) (it : Node),
      (siftupAux s fuel l pos it).length = l.length := by
  intro fuel
  induction fuel with
  | zero =>
    intro l pos it
    rw [siftupAux, siftdownAux_length]
    simp
  | succ fuel ih =>
    intro l pos it
    rw [siftupAux]
    split
    · split
      · rw [ih]
        simp
      · rw [ih]
        simp
    · rw [siftdownAux_length]
      simp

theorem heappush_length (l : List Node) (n : Node) :
    (heappush l n).length = l.length + 1 := by
  rw [heappush, siftdownAux_length]
  simp

theorem two_set_mset (l : List Node) (i j : Nat) (a b : Node)
    (hij : i ≠ j) (hi : i < l.length) (hj : j < l.length)
    (hb : l.getD j nodeDflt = b) :
    (((l.set i b).set j a : List Node) : Multiset Node) =
      ((l.set i a : List Node) : Multiset Node) := by
  have h1 : (((l.set i b).set j a : List Node) : Multiset Node) + {(l.set i b).getD j nodeDflt} =
      ((l.set i b : List Node) : Multiset Node) + {a} :=
    mset_set _ j a (by simpa using hj)
  rw [getD_set_ne l i j b hij, hb] at h1
  have h2 : ((l.set i b : List Node) : Multiset Node) + {l.getD i nodeDflt} =
      (l : Multiset Node) + {b} := mset_set l i b hi
  have h3 : ((l.set i a : List Node) : Multiset Node) + {l.getD i nodeDflt} =
      (l : Multiset Node) + {a} := mset_set l i a hi
  have key : (((l.set i b).set j a : List Node) : Multiset Node) + {b} + {l.getD i nodeDflt} =
      ((l.set i a : List Node) : Multiset Node) + {b} + {l.getD i nodeDflt} := by
    calc (((l.set i b).set j a : List Node) : Multiset Node) + {b} + {l.getD i nodeDflt}
        = ((l.set i b : List Node) : Multiset Node) + {a} + {l.getD i nodeDflt} := by rw [h1]
      _ = ((l.set i b : List Node) : Multiset Node) + {l.getD i nodeDflt} + {a} := by
          rw [add_right_comm]
      _ = (l : Multiset Node) + {b} + {a} := by rw [h2]
      _ = (l : Multiset Node) + {a} + {b} := by rw [add_right_comm]
      _ = ((l.set i a : List Node) : Multiset Node) + {l.getD i nodeDflt} + {b} := by rw [h3]
      _ = ((l.set i a : List Node) : Multiset Node) + {b} + {l.getD i nodeDflt} := by
          rw [add_right_comm]
  exact add_right_cancel (add_right_cancel key)

theorem siftdownAux_mset (s : Nat) :
    ∀ (fuel : Nat) (l : List Node) (pos : Nat) (it : Node), pos < l.length →
      ((siftdownAux s fuel l pos it : List Node) : Multiset Node) =
        ((l.set pos it : List Node) : Multiset Node) := by
  intro fuel
  induction fuel with
  | zero => intro l pos it hlen; rfl
  | succ fuel ih =>
    intro l pos it hlen
    rw [siftdownAux]
    split
    · next hpos =>
      split
      · next hlt =>
        rw [ih _ _ _ (by simp; omega)]
        exact two_set_mset l pos ((pos - 1) / 2) it _ (by omega) hlen (by omega) rfl
      · rfl
    · rfl

theorem siftupAux_mset (s : Nat) :
    ∀ (fuel : Nat) (l : List Node) (pos : Nat) (it : Node), pos < l.length →
      ((siftupAux s fuel l pos it : List Node) : Multiset Node) =
        ((l.set pos it : List Node) : Multiset Node) := by
  intro fuel
  induction fuel with
  | zero =>
    intro l pos it hlen
    rw [siftupAux, siftdownAux_mset s pos _ pos it (by simpa using hlen),
      List.set_set]
  | succ fuel ih =>
    intro l pos it hlen
    rw [siftupAux]
    split
    · next hc =>
      split
      · next hcond =>
        rw [ih _ _ _ (by simp; omega)]
        exact two_set_mset l pos (2 * pos + 2) it _ (by omega) hlen (by omega) rfl
      · rw [ih _ _ _ (by simp; omega)]
        exact two_set_mset l pos (2 * pos + 1) it _ (by omega) hlen hc rfl
    · rw [siftdownAux_mset s pos _ pos it (by simpa using hlen), List.set_set]

theorem heappush_mset (l : List Node) (n : Node) :
    ((heappush l n : List Node) : Multiset Node) = n ::ₘ (l : Multiset Node) := by
  rw [heappush, siftdownAux_mset _ _ _ _ _ (by simp)]
  rw [mset_set_getD _ _ _ (by rw [List.getD_append_right _ _ _ _ (le_refl _)]; simp)]
  simp

theorem heappop_spec (l : List Node) (r : Node) (rest : List Node)
    (h : heappop l = some (r, rest)) :
    (l : Multiset Node) = r ::ₘ (rest : Multiset Node) ∧
      rest.length + 1 = l.length ∧ r = l.getD 0 nodeDflt := by
  match l, h with
  | x :: xs, h =>
    rw [heappop] at h
    rcases hdl : (x :: xs).dropLast with _ | ⟨y, ys⟩
    · rw [hdl] at h
      simp only [Option.some.injEq, Prod.mk.injEq] at h
      obtain ⟨hr, hrest⟩ := h
      have hxs : xs = [] := by
        cases xs with
        | nil => rfl
        | cons a as => simp [List.dropLast] at hdl
      subst hxs
      subst hrest
      simp only [List.getLastD] at hr
      constructor
      · rw [← hr]
        rfl
      · simp [← hr]
    · rw [hdl] at h
      simp only [Option.some.injEq, Prod.mk.injEq] at h
      obtain ⟨hr, hrest⟩ := h
      have hylen : (y :: ys).length + 1 = (x :: xs).length := by
        have := List.length_dropLast (x :: xs)
        rw [hdl] at this
        simp at this ⊢
        omega
      have hxy : y = x := by
        cases xs with
        | nil => simp [List.dropLast] at hdl
        | cons a as =>
          have : (x :: a :: as).dropLast = x :: (a :: as).dropLast := rfl
          rw [this] at hdl
          exact (List.cons.injEq _ _ _ _ ▸ hdl).1.symm
      have hmset : ((x :: xs : List Node) : Multiset Node) =
          ((x :: xs).getLastD nodeDflt) ::ₘ ((y :: ys : List Node) : Multiset Node) := by
        conv_lhs => rw [dropLast_getLastD (x :: xs) (by simp), hdl]
        exact Multiset.coe_eq_coe.mpr (List.perm_append_singleton _ _)
      have hset : y ::ₘ (((y :: ys).set 0 ((x :: xs).getLastD nodeDflt) : List Node) : Multiset Node) =
          ((x :: xs).getLastD nodeDflt) ::ₘ ((y :: ys : List Node) : Multiset Node) := by
        have h0 := mset_set (y :: ys) 0 ((x :: xs).getLastD nodeDflt) (by simp)
        rw [List.getD_cons_zero] at h0
        rw [msetAddSingle, msetAddSingle] at h0
        exact h0
      refine ⟨?_, ?_, ?_⟩
      · rw [← hrest, ← hr]
        rw [siftupAux_mset _ _ _ _ _ (by simp), List.set_set, hset]
        exact hmset
      · rw [← hrest, siftupAux_length]
        simpa using hylen
      · rw [← hr, hxy]
        rfl

/-! ### Heap-order preservation

Classical sift invariants: `UpInv` is the precondition of the upward sift
`siftdownAux`, `DownInv` of the downward phase of `siftupAux`; the CPython
routines restore `IsHeap` from them. -/

theorem UpInv_step (l : List Node) (pos : Nat) (it : Node)
    (hpos : 0 < pos) (hlen : pos < l.length)
    (hinv : UpInv l pos it)
    (hlt : it.key < (l.getD ((pos - 1) / 2) nodeDflt).key) :
    UpInv (l.set pos (l.getD ((pos - 1) / 2) nodeDflt)) ((pos - 1) / 2) it := by
  obtain ⟨h1, h2⟩ := hinv
  have hpplt : (pos - 1) / 2 < pos := by omega
  have hpplen : (pos - 1) / 2 < l.length := by omega
  have vpos : (l.set pos it).getD pos nodeDflt = it := getD_set_self _ _ _ hlen
  have vne : ∀ j, j ≠ pos → (l.set pos it).getD j nodeDflt = l.getD j nodeDflt :=
    fun j hj => getD_set_ne _ _ _ _ (fun he => hj he.symm)
  have wpp : ((l.set pos (l.getD ((pos - 1) / 2) nodeDflt)).set ((pos - 1) / 2) it).getD
      ((pos - 1) / 2) nodeDflt = it :=
    getD_set_self _ _ _ (by simpa using hpplen)
  have wpos : ((l.set pos (l.getD ((pos - 1) / 2) nodeDflt)).set ((pos - 1) / 2) it).getD
      pos nodeDflt = l.getD ((pos - 1) / 2) nodeDflt := by
    rw [getD_set_ne _ _ _ _ (by omega), getD_set_self _ _ _ hlen]
  have wne : ∀ j, j ≠ pos → j ≠ (pos - 1) / 2 →
      ((l.set pos (l.getD ((pos - 1) / 2) nodeDflt)).set ((pos - 1) / 2) it).getD
        j nodeDflt = l.getD j nodeDflt := by
    intro j hj1 hj2
    rw [getD_set_ne _ _ _ _ (fun he => hj2 he.symm),
      getD_set_ne _ _ _ _ (fun he => hj1 he.symm)]
  constructor
  · intro j hj0 hjlen hjne
    rw [List.length_set] at hjlen
    by_cases hjpos : j = pos
    · subst hjpos
      rw [wpp, wpos]
      exact Nat.le_of_lt hlt
    · by_cases hjp : (j - 1) / 2 = pos
      · have hjbig : pos < j := by omega
        rw [hjp, wpos, wne j hjpos (by omega)]
        have := h2 j hj0 hjlen hjp hpos
        rw [vne ((pos - 1) / 2) (by omega), vne j hjpos] at this
        exact this
      · by_cases hjpp : (j - 1) / 2 = (pos - 1) / 2
        · rw [hjpp, wpp, wne j hjpos hjne]
          have := h1 j hj0 hjlen hjpos
          rw [hjpp] at this
          rw [vne ((pos - 1) / 2) (by omega), vne j hjpos] at this
          exact le_trans (Nat.le_of_lt hlt) this
        · rw [wne ((j - 1) / 2) hjp hjpp, wne j hjpos hjne]
          have := h1 j hj0 hjlen hjpos
          rw [vne ((j - 1) / 2) hjp, vne j hjpos] at this
          exact this
  · intro j hj0 hjlen hjp hpp0
    rw [List.length_set] at hjlen
    have hgp1 : ((pos - 1) / 2 - 1) / 2 ≠ pos := by omega
    have hgp2 : ((pos - 1) / 2 - 1) / 2 ≠ (pos - 1) / 2 := by omega
    rw [wne _ hgp1 hgp2]
    have hstep : (l.getD (((pos - 1) / 2 - 1) / 2) nodeDflt).key ≤
        (l.getD ((pos - 1) / 2) nodeDflt).key := by
      have := h1 ((pos - 1) / 2) hpp0 hpplen (by omega)
      rw [vne (((pos - 1) / 2 - 1) / 2) hgp1, vne ((pos - 1) / 2) (by omega)] at this
      exact this
    by_cases hjpos : j = pos
    · subst hjpos
      rw [wpos]
      exact hstep
    · have hjbig : (pos - 1) / 2 < j := by omega
      rw [wne j hjpos (by omega)]
      have := h1 j hj0 hjlen hjpos
      rw [hjp] at this
      rw [vne ((pos - 1) / 2) (by omega), vne j hjpos] at this
      exact le_trans hstep this

theorem siftdownAux_heap :
    ∀ (fuel : Nat) (l : List Node) (pos : Nat) (it : Node), pos ≤ fuel →
      pos < l.length → UpInv l pos it → IsHeap (siftdownAux 0 fuel l pos it) := by
  intro fuel
  induction fuel with
  | zero =>
    intro l pos it hfuel hlen hinv
    have hpos0 : pos = 0 := by omega
    subst hpos0
    intro j hj0 hjlen
    rw [siftdownAux, List.length_set] at hjlen
    exact hinv.1 j hj0 hjlen (by omega)
  | succ fuel ih =>
    intro l pos it hfuel hlen hinv
    rw [siftdownAux]
    split
    · next hpos =>
      split
      · next hlt =>
        exact ih _ ((pos - 1) / 2) it (by omega) (by simp; omega)
          (UpInv_step l pos it hpos hlen hinv hlt)
      · next hge =>
        intro j hj0 hjlen
        rw [List.length_set] at hjlen
        by_cases hjpos : j = pos
        · subst hjpos
          rw [getD_set_ne _ _ _ _ (by omega), getD_set_self _ _ _ hlen]
          exact Nat.le_of_not_lt hge
        · exact hinv.1 j hj0 hjlen hjpos
    · next hpos =>
      have hpos0 : pos = 0 := by omega
      subst hpos0
      intro j hj0 hjlen
      rw [List.length_set] at hjlen
      exact hinv.1 j hj0 hjlen (by omega)

theorem heappush_heap (l : List Node) (n : Node) (hl : IsHeap l) :
    IsHeap (heappush l n) := by
  rw [heappush]
  apply siftdownAux_heap l.length (l ++ [n]) l.length n (le_refl _) (by simp)
  constructor
  · intro j hj0 hjlen hjne
    simp only [List.length_append, List.length_cons, List.length_nil] at hjlen
    have hjlt : j < l.length := by omega
    have hplt : (j - 1) / 2 < l.length := by omega
    have hset : ∀ i, i < l.length →
        ((l ++ [n]).set l.length n).getD i nodeDflt = l.getD i nodeDflt := by
      intro i hi
      rw [getD_set_ne _ _ _ _ (by omega), List.getD_append _ _ _ _ hi]
    rw [hset j hjlt, hset _ hplt]
    exact hl j hj0 hjlt
  · intro j hj0 hjlen hjp hp0
    simp only [List.length_append, List.length_cons, List.length_nil] at hjlen
    omega

theorem DownInv_step (l : List Node) (pos c : Nat)
    (hc0 : 0 < c) (hc : c < l.length) (hchild : (c - 1) / 2 = pos)
    (hmin : ∀ j, 0 < j → j < l.length → (j - 1) / 2 = pos →
      (l.getD c nodeDflt).key ≤ (l.getD j nodeDflt).key)
    (hinv : DownInv l pos) :
    DownInv (l.set pos (l.getD c nodeDflt)) c := by
  obtain ⟨h1, h2⟩ := hinv
  have hcpos : pos < c := by omega
  have hplen : pos < l.length := lt_trans hcpos hc
  constructor
  · intro j hj0 hjlen hjc hjpc
    rw [List.length_set] at hjlen
    by_cases hjpos : j = pos
    · subst hjpos
      rw [getD_set_ne _ _ _ _ (by omega), getD_set_self _ _ _ hplen]
      exact h2 c (by omega) hc hchild hj0
    · by_cases hjp : (j - 1) / 2 = pos
      · rw [hjp, getD_set_self _ _ _ hplen, getD_set_ne _ _ _ _ (fun he => hjpos he.symm)]
        exact hmin j hj0 hjlen hjp
      · rw [getD_set_ne _ _ _ _ (fun he => hjp he.symm),
          getD_set_ne _ _ _ _ (fun he => hjpos he.symm)]
        exact h1 j hj0 hjlen hjpos hjp
  · intro j hj0 hjlen hjc hcpos0
    rw [List.length_set] at hjlen
    have hjbig : c < j := by omega
    rw [hchild, getD_set_self _ _ _ hplen,
      getD_set_ne l pos j (l.getD c nodeDflt) (by omega)]
    have hj1 := h1 j hj0 hjlen (by omega) (by omega)
    rw [hjc] at hj1
    exact hj1

theorem siftupAux_heap :
    ∀ (fuel : Nat) (l : List Node) (pos : Nat) (it : Node),
      l.length ≤ fuel + pos → pos < l.length → DownInv l pos →
      IsHeap (siftupAux 0 fuel l pos it) := by
  intro fuel
  induction fuel with
  | zero =>
    intro l pos it hfuel hlen hinv
    omega
  | succ fuel ih =>
    intro l pos it hfuel hlen hinv
    rw [siftupAux]
    split
    · next hc1 =>
      split
      · next hcond =>
        apply ih _ (2 * pos + 2) it (by simp only [List.length_set]; omega)
          (by simp only [List.length_set]; omega)
        apply DownInv_step l pos (2 * pos + 2) (by omega) (by omega) (by omega) ?_ hinv
        intro j hj0 hjlen hjp
        have hj12 : j = 2 * pos + 1 ∨ j = 2 * pos + 2 := by omega
        rcases hj12 with h | h
        · subst h
          exact Nat.le_of_not_lt hcond.2
        · subst h
          exact le_refl _
      · next hcond =>
        apply ih _ (2 * pos + 1) it (by simp only [List.length_set]; omega)
          (by simp only [List.length_set]; omega)
        apply DownInv_step l pos (2 * pos + 1) (by omega) hc1 (by omega) ?_ hinv
        intro j hj0 hjlen hjp
        have hj12 : j = 2 * pos + 1 ∨ j = 2 * pos + 2 := by omega
        rcases hj12 with h | h
        · subst h
          exact le_refl _
        · subst h
          have hltkey : (l.getD (2 * pos + 1) nodeDflt).key <
              (l.getD (2 * pos + 2) nodeDflt).key := by
            by_contra hcon
            exact hcond ⟨hjlen, hcon⟩
          exact Nat.le_of_lt hltkey
    · next hc1 =>
      apply siftdownAux_heap pos _ pos it (le_refl _) (by simp; omega)
      obtain ⟨h1, h2⟩ := hinv
      constructor
      · intro j hj0 hjlen hjne
        rw [List.length_set] at hjlen
        rw [List.set_set]
        by_cases hjp : (j - 1) / 2 = pos
        · omega
        · rw [getD_set_ne _ _ _ _ (fun he => hjp he.symm),
            getD_set_ne _ _ _ _ (fun he => hjne he.symm)]
          exact h1 j hj0 hjlen hjne hjp
      · intro j hj0 hjlen hjp hp0
        rw [List.length_set] at hjlen
        omega

theorem heappop_heap (l : List Node) (r : Node) (rest : List Node)
    (hl : IsHeap l) (h : heappop l = some (r, rest)) : IsHeap rest := by
  match l, h with
  | x :: xs, h =>
    rw [heappop] at h
    rcases hdl : (x :: xs).dropLast with _ | ⟨y, ys⟩ <;> rw [hdl] at h <;>
      simp only [Option.some.injEq, Prod.mk.injEq] at h
    · rw [← h.2]
      intro j hj0 hjlen
      simp at hjlen
    · obtain ⟨hr, hrest⟩ := h
      rw [← hrest]
      have hylen : (y :: ys).length + 1 = (x :: xs).length := by
        have := List.length_dropLast (x :: xs)
        rw [hdl] at this
        simp at this ⊢
        omega
      have hget : ∀ j, j < (y :: ys).length →
          (y :: ys).getD j nodeDflt = (x :: xs).getD j nodeDflt := by
        intro j hj
        conv_rhs => rw [dropLast_getLastD (x :: xs) (by simp), hdl]
        rw [List.getD_append _ _ _ _ hj]
      apply siftupAux_heap _ _ _ _ (by simp) (by simp)
      constructor
      · intro j hj0 hjlen hjne hjp
        rw [List.length_set] at hjlen
        rw [getD_set_ne _ _ _ _ (by omega), getD_set_ne _ _ _ _ (by omega)]
        rw [hget j hjlen, hget ((j - 1) / 2) (by omega)]
        exact hl j hj0 (by omega)
      · intro j hj0 hjlen hjp hp0
        omega

theorem isHeap_root_le (l : List Node) (hl : IsHeap l) :
    ∀ j, j < l.length → (l.getD 0 nodeDflt).key ≤ (l.getD j nodeDflt).key := by
  intro j
  induction j using Nat.strong_induction_on with
  | _ j IH =>
    intro hj
    rcases Nat.eq_zero_or_pos j with h0 | h0
    · subst h0
      exact le_refl _
    · exact le_trans (IH ((j - 1) / 2) (by omega) (by omega)) (hl j h0 hj)

theorem heappop_min (l : List Node) (r : Node) (rest : List Node)
    (hl : IsHeap l) (h : heappop l = some (r, rest)) :
    ∀ n ∈ l, r.key ≤ n.key := by
  obtain ⟨hm, hlen, hr⟩ := heappop_spec l r rest h
  intro n hn
  obtain ⟨i, hi, hgetl⟩ := List.mem_iff_getElem.mp hn
  have hni : l.getD i nodeDflt = n := by
    rw [List.getD_eq_getElem _ _ hi, hgetl]
  rw [hr, ← hni]
  exact isHeap_root_le l hl i hi

/-! ### The start/goal scan of the constructor -/

theorem forall_mem_enumFrom {α : Type} (P : α → Prop) :
    ∀ (n : Nat) (l : List α), (∀ x ∈ l.enumFrom n, P x.2) ↔ ∀ a ∈ l, P a := by
  intro n l
  induction l generalizing n with
  | nil => simp
  | cons c cs ih =>
    rw [List.enumFrom_cons, List.forall_mem_cons, List.forall_mem_cons, ih]

theorem notMem_iff_forall (ch : Char) (l : List Char) :
    (∀ a ∈ l, ¬ a = ch) ↔ ch ∉ l := by
  constructor
  · intro h hmem
    exact h ch hmem rfl
  · intro h a ha he
    exact h (he ▸ ha)

theorem scanCell_fst_none (i : Nat)
    (acc : Option (Int × Int) × Option (Int × Int)) (jc : Nat × Char) :
    (scanCell i acc jc).1 = none ↔ acc.1 = none ∧ ¬ jc.2 = 'A' := by
  rw [scanCell]
  split
  · next h => simp [h]
  · next h =>
    split <;> simp [h]

theorem scanCell_snd_none (i : Nat)
    (acc : Option (Int × Int) × Option (Int × Int)) (jc : Nat × Char) :
    (scanCell i acc jc).2 = none ↔ acc.2 = none ∧ ¬ jc.2 = 'B' := by
  rw [scanCell]
  split
  · next h => simp [h]
  · next h =>
    split <;> simp_all

theorem foldl_scanCell_fst_none (i : Nat) :
    ∀ (l : List (Nat × Char)) (acc : Option (Int × Int) × Option (Int × Int)),
      (l.foldl (scanCell i) acc).1 = none ↔
        acc.1 = none ∧ ∀ jc ∈ l, ¬ jc.2 = 'A' := by
  intro l
  induction l with
  | nil => intro acc; simp
  | cons x xs ih =>
    intro acc
    rw [List.foldl_cons, ih, scanCell_fst_none, List.forall_mem_cons]
    tauto

theorem foldl_scanCell_snd_none (i : Nat) :
    ∀ (l : List (Nat × Char)) (acc : Option (Int × Int) × Option (Int × Int)),
      (l.foldl (scanCell i) acc).2 = none ↔
        acc.2 = none ∧ ∀ jc ∈ l, ¬ jc.2 = 'B' := by
  intro l
  induction l with
  | nil => intro acc; simp
  | cons x xs ih =>
    intro acc
    rw [List.foldl_cons, ih, scanCell_snd_none, List.forall_mem_cons]
    tauto

theorem scanRow_fst_none (acc : Option (Int × Int) × Option (Int × Int))
    (ir : Nat × List Char) :
    (scanRow acc ir).1 = none ↔ acc.1 = none ∧ 'A' ∉ ir.2 := by
  rw [scanRow, foldl_scanCell_fst_none]
  have h := forall_mem_enumFrom (fun c => ¬ c = 'A') 0 ir.2
  rw [show ir.2.enumFrom 0 = ir.2.enum from rfl] at h
  rw [h, notMem_iff_forall]

theorem scanRow_snd_none (acc : Option (Int × Int) × Option (Int × Int))
    (ir : Nat × List Char) :
    (scanRow acc ir).2 = none ↔ acc.2 = none ∧ 'B' ∉ ir.2 := by
  rw [scanRow, foldl_scanCell_snd_none]
  have h := forall_mem_enumFrom (fun c => ¬ c = 'B') 0 ir.2
  rw [show ir.2.enumFrom 0 = ir.2.enum from rfl] at h
  rw [h, notMem_iff_forall]

theorem foldl_scanRow_fst_none :
    ∀ (l : List (Nat × List Char))
      (acc : Option (Int × Int) × Option (Int × Int)),
      (l.foldl scanRow acc).1 = none ↔ acc.1 = none ∧ ∀ ir ∈ l, 'A' ∉ ir.2 := by
  intro l
  induction l with
  | nil => intro acc; simp
  | cons x xs ih =>
    intro acc
    rw [List.foldl_cons, ih, scanRow_fst_none, List.forall_mem_cons]
    tauto

theorem foldl_scanRow_snd_none :
    ∀ (l : List (Nat × List Char))
      (acc : Option (Int × Int) × Option (Int × Int)),
      (l.foldl scanRow acc).2 = none ↔ acc.2 = none ∧ ∀ ir ∈ l, 'B' ∉ ir.2 := by
  intro l
  induction l with
  | nil => intro acc; simp
  | cons x xs ih =>
    intro acc
    rw [List.foldl_cons, ih, scanRow_snd_none, List.forall_mem_cons]
    tauto

theorem scanMarkers_fst_none (rows : List (List Char)) :
    (scanMarkers rows).1 = none ↔ ∀ r ∈ rows, 'A' ∉ r := by
  rw [scanMarkers, foldl_scanRow_fst_none]
  have h := forall_mem_enumFrom (fun r => 'A' ∉ r) 0 rows
  rw [show rows.enumFrom 0 = rows.enum from rfl] at h
  rw [h]
  simp

theorem scanMarkers_snd_none (rows : List (List Char)) :
    (scanMarkers rows).2 = none ↔ ∀ r ∈ rows, 'B' ∉ r := by
  rw [scanMarkers, foldl_scanRow_snd_none]
  have h := forall_mem_enumFrom (fun r => 'B' ∉ r) 0 rows
  rw [show rows.enumFrom 0 = rows.enum from rfl] at h
  rw [h]
  simp

/-! ### Strategy equivalence: the solve loop never reads the selector

The per-strategy `priority` in the source is assigned but never used (the
heap orders by `Node.__lt__`, which always compares `cost + heuristic`), so
the whole search is independent of the chosen strategy. -/

theorem expandOne_alg (m : Maze) (a1 a2 : String) (cur : Node) (st : SState)
    (step : String × (Int × Int)) :
    expandOne m a1 cur st step = expandOne m a2 cur st step := rfl

theorem foldl_expandOne_alg (m : Maze) (a1 a2 : String) (cur : Node) :
    ∀ (l : List (String × (Int × Int))) (st : SState),
      l.foldl (expandOne m a1 cur) st = l.foldl (expandOne m a2 cur) st := by
  intro l
  induction l with
  | nil => intro st; rfl
  | cons x xs ih =>
    intro st
    rw [List.foldl_cons, List.foldl_cons, expandOne_alg m a1 a2, ih]

theorem solveLoop_alg (m : Maze) (a1 a2 : String) :
    ∀ (fuel : Nat) (st : SState),
      solveLoop m a1 fuel st = solveLoop m a2 fuel st := by
  intro fuel
  induction fuel with
  | zero => intro st; rfl
  | succ fuel ih =>
    intro st
    rw [solveLoop, solveLoop]
    cases hpop : heappop st.frontier with
    | none => rfl
    | some pr =>
      obtain ⟨cur, rest⟩ := pr
      dsimp only
      by_cases hg : cur.state = m.goal
      · rw [if_pos hg, if_pos hg]
      · rw [if_neg hg, if_neg hg, foldl_expandOne_alg m a1 a2, ih]

/-- C5: for every grid, `solve` with the `a*` selector and `solve` with the
`greedy` selector return identical results — the same path, the same action
list and the same visited set (and even identical ghost push/pop traces):
the two strategies are extensionally equal, because the per-strategy
priority the source computes is never used. -/
theorem c5_strategies_extensionally_equal (m : Maze) :
    m.solve "a*" = m.solve "greedy" ∧ m.solveCore "a*" = m.solveCore "greedy" := by
  have hcore : m.solveCore "a*" = m.solveCore "greedy" := by
    rw [Maze.solveCore, Maze.solveCore, solveLoop_alg]
  refine ⟨?_, hcore⟩
  rw [Maze.solve, Maze.solve, if_neg (by decide), if_neg (by decide), hcore]

/-- C10: `solve` is deterministic — two invocations on equal grids with
equal strategy selectors return identical outcomes (the embedding of the
search is a pure function: the source has no randomness and no
iteration-order nondeterminism). -/
theorem c10_solve_deterministic (m1 m2 : Maze) (a1 a2 : String)
    (hm : m1 = m2) (ha : a1 = a2) :
    m1.solve a1 = m2.solve a2 ∧ m1.solveCore a1 = m2.solveCore a2 := by
  subst hm
  subst ha
  exact ⟨rfl, rfl⟩

/-- Witness for C10 at a concrete grid and strategy. -/
theorem c10_witness :
    mzDiag = mzDiag ∧ ("a*" : String) = "a*" ∧
      (mzDiag.solve "a*" = mzDiag.solve "a*" ∧
        mzDiag.solveCore "a*" = mzDiag.solveCore "a*") :=
  ⟨rfl, rfl, c10_solve_deterministic mzDiag mzDiag "a*" "a*" rfl rfl⟩

/-- C3 counterexample: the selector `a-star` named by the spec is NOT
accepted — the source compares against the literal `"a*"`, so
`solve("a-star")` raises `InvalidStrategy`. -/
theorem c3_counterexample :
    mzAB.solve "a-star" = some (.error .invalidStrategy) := by decide

/-- C3 (amended): `solve` fails with `InvalidStrategy` exactly when the
lower-cased selector is neither `a*` nor `greedy`; the check happens before
any search work. -/
theorem c3_invalid_strategy_iff (m : Maze) (alg : String) :
    m.solve alg = some (.error .invalidStrategy) ↔
      (strLower alg ≠ "a*" ∧ strLower alg ≠ "greedy") := by
  rw [Maze.solve]
  split
  · next hmem =>
    simp only [List.mem_cons, List.not_mem_nil, or_false, not_or] at hmem
    exact iff_of_true rfl hmem
  · next hmem =>
    have hmem2 : strLower alg ∈ (["a*", "greedy"] : List String) := not_not.mp hmem
    apply iff_of_false
    · intro h
      cases hc : m.solveCore alg with
      | none =>
        rw [hc] at h
        simp at h
      | some r =>
        rw [hc] at h
        cases r <;> simp at h
    · rintro ⟨h1, h2⟩
      rcases (by simpa using hmem2 : strLower alg = "a*" ∨ strLower alg = "greedy")
        with h | h
      · exact h1 h
      · exact h2 h

/-- Witness for C3's amended theorem at a concrete grid and selector. -/
theorem c3_witness :
    mzAB.solve "dijkstra" = some (.error .invalidStrategy) ∧
      (strLower "dijkstra" ≠ "a*" ∧ strLower "dijkstra" ≠ "greedy") :=
  ⟨(c3_invalid_strategy_iff mzAB "dijkstra").mpr (by decide), by decide⟩

/-- C4 counterexample: a grid text with TWO start markers is accepted by the
constructor (the scan keeps the last occurrence); the claim says it must be
rejected with `MalformedGrid`. -/
theorem c4_counterexample :
    mazeInit "AAB" =
      .ok { maze := [['A', 'A', 'B']], height := 1, width := 3,
            start := (0, 1), goal := (0, 2) } := by decide

/-- C4 (amended): construction fails iff the filtered row list is empty,
some row's length differs from the first row's, there is no `'A'` at all, or
there is no `'B'` at all.  Marker counts larger than one are accepted (the
last occurrence wins). -/
theorem c4_construction_fails_iff (s : String) :
    (∃ e, mazeInit s = .error e) ↔
      (mazeRows s = [] ∨
        (∃ r ∈ mazeRows s, r.length ≠ ((mazeRows s).headD []).length) ∨
        (∀ r ∈ mazeRows s, 'A' ∉ r) ∨ (∀ r ∈ mazeRows s, 'B' ∉ r)) := by
  rcases hrows : mazeRows s with _ | ⟨r0, rs⟩
  · simp [mazeInit, hrows]
  · simp only [mazeInit, hrows]
    by_cases hall : ((r0 :: rs).all fun r => decide (r.length = r0.length)) = true
    · rw [if_pos hall]
      rcases hscan : scanMarkers (r0 :: rs) with ⟨oA, oB⟩
      cases oA with
      | none =>
        have hA : ∀ r ∈ r0 :: rs, 'A' ∉ r :=
          (scanMarkers_fst_none (r0 :: rs)).mp (by rw [hscan])
        exact iff_of_true ⟨.missingMarker, rfl⟩ (Or.inr (Or.inr (Or.inl hA)))
      | some stv =>
        cases oB with
        | none =>
          have hB : ∀ r ∈ r0 :: rs, 'B' ∉ r :=
            (scanMarkers_snd_none (r0 :: rs)).mp (by rw [hscan])
          exact iff_of_true ⟨.missingMarker, rfl⟩ (Or.inr (Or.inr (Or.inr hB)))
        | some glv =>
          apply iff_of_false
          · rintro ⟨e, he⟩
            simp at he
          · rintro (h | h | h | h)
            · exact List.cons_ne_nil _ _ h
            · obtain ⟨r, hr, hne⟩ := h
              have hlen := List.all_eq_true.mp hall r hr
              simp only [decide_eq_true_eq] at hlen
              simp only [List.headD_cons] at hne
              exact hne hlen
            · have := (scanMarkers_fst_none (r0 :: rs)).mpr h
              rw [hscan] at this
              simp at this
            · have := (scanMarkers_snd_none (r0 :: rs)).mpr h
              rw [hscan] at this
              simp at this
    · rw [if_neg hall]
      have hrag : ∃ r ∈ r0 :: rs, r.length ≠ ((r0 :: rs).headD []).length := by
        by_contra hcon
        push_neg at hcon
        exact hall (List.all_eq_true.mpr (fun r hr => by
          simp only [decide_eq_true_eq]
          have := hcon r hr
          simpa using this))
      exact iff_of_true ⟨.badShape, rfl⟩ (Or.inr (Or.inl hrag))

/-- C9: for an in-bounds cell, `neighbors` is a sublist of the four
candidate moves in the fixed order right, down, left, up, and contains
exactly those that are in bounds and not a wall.  (It is a pure query: the
embedding returns a value and touches no state.) -/
theorem c9_neighbors_characterisation (m : Maze) (s : Int × Int)
    (hs : 0 ≤ s.1 ∧ s.1 < (m.height : Int) ∧ 0 ≤ s.2 ∧ s.2 < (m.width : Int)) :
    (m.neighbors s).Sublist
        [("right", (s.1, s.2 + 1)), ("down", (s.1 + 1, s.2)),
         ("left", (s.1, s.2 - 1)), ("up", (s.1 - 1, s.2))] ∧
      ∀ act c, (act, c) ∈ m.neighbors s ↔
        ((act, c) ∈ ([("right", (s.1, s.2 + 1)), ("down", (s.1 + 1, s.2)),
            ("left", (s.1, s.2 - 1)), ("up", (s.1 - 1, s.2))] :
            List (String × (Int × Int))) ∧
          0 ≤ c.1 ∧ c.1 < (m.height : Int) ∧ 0 ≤ c.2 ∧ c.2 < (m.width : Int) ∧
          m.cellAt c ≠ '#') := by
  constructor
  · exact List.filter_sublist _
  · intro act c
    rw [Maze.neighbors, List.mem_filter]
    simp [Maze.inBoundsOpen, and_assoc]

/-- Witness for C9 at the start cell of the 1×2 grid. -/
theorem c9_witness :
    (0 ≤ ((0, 0) : Int × Int).1 ∧ ((0, 0) : Int × Int).1 < (mzAB.height : Int) ∧
        0 ≤ ((0, 0) : Int × Int).2 ∧ ((0, 0) : Int × Int).2 < (mzAB.width : Int)) ∧
      ((mzAB.neighbors (0, 0)).Sublist
          [("right", (0, 1)), ("down", (1, 0)), ("left", (0, -1)), ("up", (-1, 0))] ∧
        ∀ act c, (act, c) ∈ mzAB.neighbors (0, 0) ↔
          ((act, c) ∈ ([("right", (0, 1)), ("down", (1, 0)),
              ("left", (0, -1)), ("up", (-1, 0))] : List (String × (Int × Int))) ∧
            0 ≤ c.1 ∧ c.1 < (mzAB.height : Int) ∧ 0 ≤ c.2 ∧
            c.2 < (mzAB.width : Int) ∧ mzAB.cellAt c ≠ '#')) :=
  ⟨by decide, c9_neighbors_characterisation mzAB (0, 0) (by decide)⟩

/-- C1: the greedy strategy does not pop by heuristic alone.  On the 3×3
scenario grid, the third pop of the `greedy` run removes a node with
heuristic 3 although the frontier holds a node with heuristic 2; the popped
node instead minimises `cost + heuristic` (the frontier orders by
`Node.__lt__` only — the greedy `priority` the source computes is never
used). -/
theorem c1_greedy_pop_not_min_heuristic :
    ((resPops (mzDiag.solveCore "greedy")).getD 2 ([], nodeDflt)).2.heuristic = 3 ∧
      (∃ n ∈ ((resPops (mzDiag.solveCore "greedy")).getD 2 ([], nodeDflt)).1,
        n.heuristic = 2) ∧
      (∀ n ∈ ((resPops (mzDiag.solveCore "greedy")).getD 2 ([], nodeDflt)).1,
        ((resPops (mzDiag.solveCore "greedy")).getD 2 ([], nodeDflt)).2.key ≤
          n.key) := by
  decide

/-! ### Chain lemmas for search nodes -/

theorem validChain_heuristic (m : Maze) (n : Node) (h : Node.ValidChain m n) :
    n.heuristic = m.heuristic n.state := by
  cases n with
  | start s c hh => exact h.2.2
  | child s p act c hh => exact h.2.2.2

theorem node_mem_self (n : Node) : Node.mem n n := by
  cases n with
  | start s c h => rfl
  | child s p act c h => exact Or.inl rfl

theorem node_mem_valid (m : Maze) :
    ∀ (n a : Node), Node.ValidChain m n → Node.mem a n →
      Node.ValidChain m a ∧ a.cost ≤ n.cost := by
  intro n
  induction n with
  | start s c h =>
    intro a hv hm
    rw [Node.mem] at hm
    subst hm
    exact ⟨hv, le_refl _⟩
  | child s p act c h ihp =>
    intro a hv hm
    rcases hm with hm | hm
    · subst hm
      exact ⟨hv, le_refl _⟩
    · obtain ⟨hva, hle⟩ := ihp a hv.1 hm
      refine ⟨hva, le_trans hle ?_⟩
      have hc : (Node.child s p act c h).cost = p.cost + 1 := hv.2.2.1
      rw [hc]
      omega

theorem chainCells_of_valid (m : Maze) :
    ∀ n, Node.ValidChain m n → chainCells n = m.start :: ancStates n := by
  intro n
  induction n with
  | start s c h =>
    intro hv
    rw [chainCells, ancStates, hv.1]
  | child s p act c h ihp =>
    intro hv
    rw [chainCells, ancStates, ihp hv.1]
    rfl

theorem chainCells_length (m : Maze) :
    ∀ n, Node.ValidChain m n → (chainCells n).length = n.cost + 1 := by
  intro n
  induction n with
  | start s c h =>
    intro hv
    rw [chainCells, hv.2.1]
    rfl
  | child s p act c h ihp =>
    intro hv
    rw [chainCells, List.length_append, ihp hv.1]
    have hc : (Node.child s p act c h).cost = p.cost + 1 := hv.2.2.1
    rw [hc]
    simp

theorem mem_state_chainCells :
    ∀ (n a : Node), Node.mem a n → a.state ∈ chainCells n := by
  intro n
  induction n with
  | start s c h =>
    intro a hm
    rw [Node.mem] at hm
    subst hm
    rw [chainCells]
    exact List.mem_singleton.mpr rfl
  | child s p act c h ihp =>
    intro a hm
    rw [chainCells]
    rcases hm with hm | hm
    · subst hm
      exact List.mem_append_right _ (List.mem_singleton.mpr rfl)
    · exact List.mem_append_left _ (ihp a hm)

theorem chainCells_mem_ex :
    ∀ (n : Node) (c : Int × Int), c ∈ chainCells n →
      ∃ a, Node.mem a n ∧ a.state = c := by
  intro n
  induction n with
  | start s ct h =>
    intro c hc
    rw [chainCells, List.mem_singleton] at hc
    exact ⟨.start s ct h, node_mem_self _, hc.symm⟩
  | child s p act ct h ihp =>
    intro c hc
    rw [chainCells, List.mem_append] at hc
    rcases hc with hc | hc
    · obtain ⟨a, ham, has⟩ := ihp c hc
      exact ⟨a, Or.inr ham, has⟩
    · rw [List.mem_singleton] at hc
      exact ⟨.child s p act ct h, node_mem_self _, hc.symm⟩

theorem valid_reachN (m : Maze) :
    ∀ n, Node.ValidChain m n → ReachN m n.cost n.state := by
  intro n
  induction n with
  | start s c h =>
    intro hv
    show ReachN m c s
    rw [hv.2.1, hv.1]
    exact .zero
  | child s p act c h ihp =>
    intro hv
    show ReachN m c s
    rw [hv.2.2.1]
    exact .succ (ihp hv.1) hv.2.1

theorem valid_chain_adj (m : Maze) :
    ∀ n, Node.ValidChain m n →
      List.Chain' (fun a b => ∃ act, (act, b) ∈ m.neighbors a)
          (m.start :: ancStates n) ∧
        (m.start :: ancStates n).getLast? = some n.state := by
  intro n
  induction n with
  | start s c h =>
    intro hv
    rw [ancStates]
    exact ⟨List.chain'_singleton _, by rw [show (Node.start s c h).state = s from rfl, hv.1]; rfl⟩
  | child s p act c h ihp =>
    intro hv
    obtain ⟨hch, hlast⟩ := ihp hv.1
    rw [ancStates, show m.start :: (ancStates p ++ [s]) = (m.start :: ancStates p) ++ [s] from rfl]
    constructor
    · rw [List.chain'_append]
      refine ⟨hch, List.chain'_singleton _, ?_⟩
      intro x hx y hy
      rw [hlast, Option.mem_def, Option.some.injEq] at hx
      rw [show ([s] : List (Int × Int)).head? = some s from rfl, Option.mem_def,
        Option.some.injEq] at hy
      subst hx
      subst hy
      exact ⟨act, hv.2.1⟩
    · rw [List.getLast?_concat]
      rfl

/-! ### Manhattan heuristic and reachability -/

theorem heuristic_goal_zero (m : Maze) : m.heuristic m.goal = 0 := by
  simp [Maze.heuristic]

theorem heuristic_le_reachTo (m : Maze) :
    ∀ (c : Int × Int) (r : Nat), ReachTo m c r → m.heuristic c ≤ r := by
  intro c r h
  induction h with
  | here => rw [heuristic_goal_zero]
  | step hnb hr ih =>
    next c c' nn act =>
    rw [Maze.neighbors, List.mem_filter] at hnb
    obtain ⟨hmem4, _⟩ := hnb
    simp only [List.mem_cons, List.not_mem_nil, or_false] at hmem4
    rcases hmem4 with h4 | h4 | h4 | h4 <;>
      (injection h4 with ha hc; subst hc; simp [Maze.heuristic] at ih ⊢; omega)

theorem reachN_reachTo (m : Maze) :
    ∀ (k : Nat) (t : Int × Int), ReachN m k t →
      ∀ r, ReachTo m t r → ReachTo m m.start (k + r) := by
  intro k t h
  induction h with
  | zero => intro r hr; simpa using hr
  | succ hn hnb ih =>
    rename_i nn cc cc' act
    intro r hr
    have h2 := ih (r + 1) (.step hnb hr)
    have heq : nn + (r + 1) = nn + 1 + r := by omega
    exact heq ▸ h2

theorem reachTo_start (m : Maze) (k : Nat) (h : ReachN m k m.goal) :
    ReachTo m m.start k := by
  have := reachN_reachTo m k m.goal h 0 .here
  simpa using this

/-! ### Monotone dictionary evolution -/

theorem visMono_refl (v : Int × Int → Option Nat) : visMono v v :=
  fun x w h => ⟨w, h, le_refl _⟩

theorem visMono_trans {v1 v2 v3 : Int × Int → Option Nat}
    (h32 : visMono v3 v2) (h21 : visMono v2 v1) : visMono v3 v1 := by
  intro x w h
  obtain ⟨w2, hw2, hle2⟩ := h21 x w h
  obtain ⟨w3, hw3, hle3⟩ := h32 x w2 hw2
  exact ⟨w3, hw3, le_trans hle3 hle2⟩

theorem nodeOK_mono (m : Maze) {vNew vOld : Int × Int → Option Nat} (n : Node)
    (hm : visMono vNew vOld) (h : NodeOK m vOld n) : NodeOK m vNew n := by
  obtain ⟨hv, hnd, hdom⟩ := h
  refine ⟨hv, hnd, ?_⟩
  intro a ha
  obtain ⟨w, hw, hle⟩ := hdom a ha
  obtain ⟨wn, hwn, hlen⟩ := hm a.state w hw
  exact ⟨wn, hwn, le_trans hlen hle⟩

/-! ### One neighbour-expansion step -/

theorem updFun_self (v : Int × Int → Option Nat) (c : Int × Int) (w : Nat) :
    (fun x => if x = c then some w else v x) c = some w := by simp

theorem updFun_ne (v : Int × Int → Option Nat) (c x : Int × Int) (w : Nat)
    (h : x ≠ c) : (fun x => if x = c then some w else v x) x = v x := by
  simp [h]

theorem expandOne_stay (m : Maze) (alg : String) (cur : Node) (st : SState)
    (q : String × (Int × Int)) (v : Nat)
    (hv : st.visited q.2 = some v) (hge : ¬ cur.cost + 1 < v) :
    expandOne m alg cur st q = st := by
  simp only [expandOne, hv]
  rw [if_neg (by simpa using hge)]

theorem expandOne_update (m : Maze) (alg : String) (cur : Node) (st : SState)
    (q : String × (Int × Int))
    (himp : st.visited q.2 = none ∨
      ∃ v, st.visited q.2 = some v ∧ cur.cost + 1 < v) :
    expandOne m alg cur st q =
      { frontier := heappush st.frontier
          (Node.child q.2 cur q.1 (cur.cost + 1) (m.heuristic q.2))
        visited := fun x => if x = q.2 then some (cur.cost + 1) else st.visited x
        allVisited := if q.2 ∈ st.allVisited then st.allVisited
          else st.allVisited ++ [q.2]
        pushesG := st.pushesG ++
          [Node.child q.2 cur q.1 (cur.cost + 1) (m.heuristic q.2)]
        popsG := st.popsG } := by
  rcases himp with hv | ⟨v, hv, hlt⟩ <;> simp only [expandOne, hv]
  · simp
  · rw [if_pos (by simpa using hlt)]

theorem expandOne_preserves (m : Maze) (alg : String) (cur : Node) (st : SState)
    (q : String × (Int × Int))
    (hcore : SInvCore m st) (hcur : NodeOK m st.visited cur)
    (hq : (q.1, q.2) ∈ m.neighbors cur.state) :
    SInvCore m (expandOne m alg cur st q) ∧
      visMono (expandOne m alg cur st q).visited st.visited ∧
      (∃ v, (expandOne m alg cur st q).visited q.2 = some v ∧ v ≤ cur.cost + 1) ∧
      (expandOne m alg cur st q).popsG = st.popsG := by
  obtain ⟨hvc, hnd, hdom⟩ := hcur
  by_cases himp : st.visited q.2 = none ∨
      ∃ v, st.visited q.2 = some v ∧ cur.cost + 1 < v
  · -- cost-improvement branch: a new node is pushed
    rw [expandOne_update m alg cur st q himp]
    dsimp only
    have hq2chain : q.2 ∉ chainCells cur := by
      intro hmem
      obtain ⟨a, ham, has⟩ := chainCells_mem_ex cur q.2 hmem
      obtain ⟨w, hw, hle⟩ := hdom a ham
      have hac := (node_mem_valid m cur a hvc ham).2
      rw [has] at hw
      rcases himp with hnone | ⟨v, hvv, hlt⟩
      · rw [hw] at hnone
        cases hnone
      · rw [hw] at hvv
        have hwv : w = v := by injection hvv
        omega
    have hmono : visMono (fun x => if x = q.2 then some (cur.cost + 1) else st.visited x)
        st.visited := by
      intro x w hw
      by_cases hx : x = q.2
      · subst hx
        rcases himp with hnone | ⟨v, hvv, hlt⟩
        · rw [hw] at hnone
          cases hnone
        · rw [hw] at hvv
          have hwv : w = v := by injection hvv
          exact ⟨cur.cost + 1, updFun_self _ _ _, by omega⟩
      · exact ⟨w, by rw [updFun_ne _ _ _ _ hx]; exact hw, le_refl _⟩
    have hnbOK : NodeOK m
        (fun x => if x = q.2 then some (cur.cost + 1) else st.visited x)
        (Node.child q.2 cur q.1 (cur.cost + 1) (m.heuristic q.2)) := by
      refine ⟨⟨hvc, hq, rfl, rfl⟩, ?_, ?_⟩
      · rw [chainCells]
        rw [List.nodup_append]
        refine ⟨hnd, List.nodup_singleton _, ?_⟩
        intro a ha hb
        rw [List.mem_singleton] at hb
        subst hb
        exact hq2chain ha
      · intro a ham
        rcases ham with ham | ham
        · subst ham
          exact ⟨cur.cost + 1, updFun_self _ _ _, le_refl _⟩
        · obtain ⟨w, hw, hle⟩ := hdom a ham
          have hane : a.state ≠ q.2 := by
            intro he
            exact hq2chain (he ▸ mem_state_chainCells cur a ham)
          have hac := (node_mem_valid m cur a hvc ham).2
          refine ⟨w, by rw [updFun_ne _ _ _ _ hane]; exact hw, ?_⟩
          show w ≤ (Node.cost a)
          omega
    have hq2start : q.2 ≠ m.start := by
      intro he
      rcases himp with hnone | ⟨v, hvv, hlt⟩
      · rw [he, hcore.visStart] at hnone
        cases hnone
      · rw [he, hcore.visStart] at hvv
        have hv0 : v = 0 := by injection hvv with h2; exact h2.symm
        omega
    refine ⟨?_, hmono, ?_, rfl⟩
    · constructor
      · -- mset
        dsimp only
        rw [heappush_mset]
        have hco : ((st.pushesG ++
            [Node.child q.2 cur q.1 (cur.cost + 1) (m.heuristic q.2)] : List Node) :
              Multiset Node) =
            Node.child q.2 cur q.1 (cur.cost + 1) (m.heuristic q.2) ::ₘ
              (st.pushesG : Multiset Node) :=
          Multiset.coe_eq_coe.mpr (List.perm_append_singleton _ _)
        rw [hco, Multiset.cons_add, hcore.mset]
      · -- pushedOK
        dsimp only
        intro n hn
        rcases List.mem_append.mp hn with hn | hn
        · exact nodeOK_mono m n hmono (hcore.pushedOK n hn)
        · rw [List.mem_singleton] at hn
          subst hn
          exact hnbOK
      · -- visPushed
        dsimp only
        intro s w hw
        by_cases hs : s = q.2
        · subst hs
          rw [if_pos rfl] at hw
          have hwc : w = cur.cost + 1 := by injection hw with h2; exact h2.symm
          subst hwc
          exact ⟨Node.child q.2 cur q.1 (cur.cost + 1) (m.heuristic q.2),
            List.mem_append_right _ (List.mem_singleton.mpr rfl), rfl, rfl⟩
        · rw [if_neg hs] at hw
          obtain ⟨n, hnmem, hns, hnc⟩ := hcore.visPushed s w hw
          exact ⟨n, List.mem_append_left _ hnmem, hns, hnc⟩
      · -- allVis
        dsimp only
        intro s
        by_cases hs : s = q.2
        · subst hs
          constructor
          · intro _
            exact ⟨Node.child q.2 cur q.1 (cur.cost + 1) (m.heuristic q.2),
              List.mem_append_right _ (List.mem_singleton.mpr rfl), rfl⟩
          · intro _
            by_cases hmem : q.2 ∈ st.allVisited
            · rw [if_pos hmem]
              exact hmem
            · rw [if_neg hmem]
              exact List.mem_append_right _ (List.mem_singleton.mpr rfl)
        · constructor
          · intro hmem
            have hmem2 : s ∈ st.allVisited := by
              by_cases hm2 : q.2 ∈ st.allVisited
              · rw [if_pos hm2] at hmem
                exact hmem
              · rw [if_neg hm2] at hmem
                rcases List.mem_append.mp hmem with h | h
                · exact h
                · rw [List.mem_singleton] at h
                  exact absurd h hs
            obtain ⟨n, hnmem, hns⟩ := (hcore.allVis s).mp hmem2
            exact ⟨n, List.mem_append_left _ hnmem, hns⟩
          · intro hex
            obtain ⟨n, hnmem, hns⟩ := hex
            have hs2 : s ∈ st.allVisited := by
              rcases List.mem_append.mp hnmem with h | h
              · exact (hcore.allVis s).mpr ⟨n, h, hns⟩
              · rw [List.mem_singleton] at h
                subst h
                exact absurd hns.symm hs
            by_cases hm2 : q.2 ∈ st.allVisited
            · rw [if_pos hm2]
              exact hs2
            · rw [if_neg hm2]
              exact List.mem_append_left _ hs2
      · -- heapInv
        dsimp only
        exact heappush_heap _ _ hcore.heapInv
      · -- visStart
        dsimp only
        rw [if_neg (fun he => hq2start he.symm)]
        exact hcore.visStart
      · -- startPushed
        dsimp only
        exact List.mem_append_left _ hcore.startPushed
    · exact ⟨cur.cost + 1, updFun_self _ _ _, le_refl _⟩
  · -- no improvement: the state is unchanged
    push_neg at himp
    obtain ⟨hnn, hge⟩ := himp
    cases hv : st.visited q.2 with
    | none => exact absurd hv hnn
    | some v =>
      have hgev := hge v hv
      rw [expandOne_stay m alg cur st q v hv (by omega)]
      exact ⟨hcore, visMono_refl _, ⟨v, hv, by omega⟩, rfl⟩

/-! ### The fold over all neighbours of a popped node -/

theorem expand_fold_preserves (m : Maze) (alg : String) (cur : Node) :
    ∀ (steps : List (String × (Int × Int))) (st : SState),
      SInvCore m st → NodeOK m st.visited cur →
      (∀ q ∈ steps, (q.1, q.2) ∈ m.neighbors cur.state) →
      SInvCore m (steps.foldl (expandOne m alg cur) st) ∧
        visMono (steps.foldl (expandOne m alg cur) st).visited st.visited ∧
        (∀ q ∈ steps, ∃ v,
          (steps.foldl (expandOne m alg cur) st).visited q.2 = some v ∧
            v ≤ cur.cost + 1) ∧
        (steps.foldl (expandOne m alg cur) st).popsG = st.popsG := by
  intro steps
  induction steps with
  | nil =>
    intro st hcore hcur hsteps
    exact ⟨hcore, visMono_refl _, by simp, rfl⟩
  | cons x xs ih =>
    intro st hcore hcur hsteps
    rw [List.foldl_cons]
    obtain ⟨hcore1, hmono1, hx1, hpops1⟩ :=
      expandOne_preserves m alg cur st x hcore ⟨hcur.1, hcur.2.1, hcur.2.2⟩
        (hsteps x (List.mem_cons_self _ _))
    obtain ⟨hcore2, hmono2, hxs2, hpops2⟩ :=
      ih (expandOne m alg cur st x) hcore1 (nodeOK_mono m cur hmono1 hcur)
        (fun q hq => hsteps q (List.mem_cons_of_mem _ hq))
    refine ⟨hcore2, visMono_trans hmono2 hmono1, ?_, by rw [hpops2, hpops1]⟩
    intro q hq
    rcases List.mem_cons.mp hq with hq | hq
    · subst hq
      obtain ⟨v, hv, hle⟩ := hx1
      obtain ⟨vn, hvn, hlen⟩ := hmono2 q.2 v hv
      exact ⟨vn, hvn, le_trans hlen hle⟩
    · exact hxs2 q hq

/-! ### One full loop iteration -/

theorem heappop_root_mem (l : List Node) (cur : Node) (rest : List Node)
    (hpop : heappop l = some (cur, rest)) : cur ∈ l := by
  obtain ⟨hm, _, _⟩ := heappop_spec l cur rest hpop
  have : cur ∈ (l : Multiset Node) := by
    rw [hm]
    exact Multiset.mem_cons_self _ _
  simpa using this

theorem mem_pushes_of_mem_frontier (m : Maze) (st : SState) (hinv : SInvCore m st)
    (n : Node) (hn : n ∈ st.frontier) : n ∈ st.pushesG := by
  have h1 : n ∈ (st.frontier : Multiset Node) + (st.popsG.map Prod.snd : Multiset Node) :=
    Multiset.mem_add.mpr (Or.inl (by simpa using hn))
  rw [hinv.mset] at h1
  simpa using h1

theorem solveLoop_inv_step (m : Maze) (alg : String) (st : SState)
    (cur : Node) (rest : List Node) (hinv : SInv m st)
    (hpop : heappop st.frontier = some (cur, rest)) (hg : cur.state ≠ m.goal) :
    SInv m ((m.neighbors cur.state).foldl (expandOne m alg cur)
        { st with frontier := rest, popsG := st.popsG ++ [(st.frontier, cur)] }) ∧
      visMono ((m.neighbors cur.state).foldl (expandOne m alg cur)
        { st with frontier := rest, popsG := st.popsG ++ [(st.frontier, cur)] }).visited
        st.visited := by
  have hspec := heappop_spec st.frontier cur rest hpop
  have hcurmem : cur ∈ st.pushesG :=
    mem_pushes_of_mem_frontier m st hinv.toSInvCore cur (heappop_root_mem _ _ _ hpop)
  have hcurOK := hinv.pushedOK cur hcurmem
  have hcore2 : SInvCore m
      { st with frontier := rest, popsG := st.popsG ++ [(st.frontier, cur)] } := by
    constructor
    · -- multiset accounting after the pop
      dsimp only
      rw [List.map_append]
      show (rest : Multiset Node) +
        ((st.popsG.map Prod.snd ++ [cur] : List Node) : Multiset Node) = _
      have hco : ((st.popsG.map Prod.snd ++ [cur] : List Node) : Multiset Node) =
          cur ::ₘ (st.popsG.map Prod.snd : Multiset Node) :=
        Multiset.coe_eq_coe.mpr (List.perm_append_singleton _ _)
      rw [hco]
      have : (rest : Multiset Node) + (cur ::ₘ (st.popsG.map Prod.snd : Multiset Node)) =
          (cur ::ₘ (rest : Multiset Node)) + (st.popsG.map Prod.snd : Multiset Node) := by
        rw [Multiset.cons_add, Multiset.add_cons]
      rw [this, ← hspec.1, hinv.mset]
    · exact fun n hn => hinv.pushedOK n hn
    · exact hinv.visPushed
    · exact hinv.allVis
    · exact heappop_heap st.frontier cur rest hinv.heapInv hpop
    · exact hinv.visStart
    · exact hinv.startPushed
  obtain ⟨hcore3, hmono3, hnb3, hpops3⟩ :=
    expand_fold_preserves m alg cur (m.neighbors cur.state)
      { st with frontier := rest, popsG := st.popsG ++ [(st.frontier, cur)] }
      hcore2 hcurOK (fun q hq => hq)
  refine ⟨⟨hcore3, ?_⟩, hmono3⟩
  intro pr hpr
  rw [hpops3] at hpr
  dsimp only at hpr
  rcases List.mem_append.mp hpr with hpr | hpr
  · obtain ⟨hne, hcond⟩ := hinv.popsOK pr hpr
    refine ⟨hne, ?_⟩
    intro q hq
    obtain ⟨v, hv, hle⟩ := hcond q hq
    obtain ⟨vn, hvn, hlen⟩ := hmono3 q.2 v hv
    exact ⟨vn, hvn, by omega⟩
  · rw [List.mem_singleton] at hpr
    subst hpr
    exact ⟨hg, hnb3⟩

/-! ### From a reachable goal to a frontier witness -/

theorem heappop_none (l : List Node) (h : heappop l = none) : l = [] := by
  cases l with
  | nil => rfl
  | cons x xs =>
    simp only [heappop] at h
    rcases hdl : (x :: xs).dropLast with _ | ⟨y, ys⟩ <;> rw [hdl] at h <;>
      exact Option.noConfusion h

theorem visited_frontier_witness (m : Maze) (st : SState) (hinv : SInv m st) :
    ∀ (c : Int × Int) (r : Nat), ReachTo m c r → ∀ v, st.visited c = some v →
      ∃ n ∈ st.frontier, ∃ rn, ReachTo m n.state rn ∧ n.cost + rn ≤ v + r := by
  intro c r h
  induction h with
  | here =>
    intro v hv
    obtain ⟨n, hnmem, hns, hnc⟩ := hinv.visPushed m.goal v hv
    have hn2 : n ∈ (st.frontier : Multiset Node) +
        (st.popsG.map Prod.snd : Multiset Node) := by
      rw [hinv.mset]
      simpa using hnmem
    rcases Multiset.mem_add.mp hn2 with hmem | hmem
    · refine ⟨n, by simpa using hmem, 0, ?_, by omega⟩
      rw [hns]
      exact ReachTo.here
    · exfalso
      have hmem2 : n ∈ st.popsG.map Prod.snd := by simpa using hmem
      obtain ⟨pr, hprmem, hpreq⟩ := List.mem_map.mp hmem2
      exact (hinv.popsOK pr hprmem).1 (by rw [hpreq, hns])
  | step hnb hr ih =>
    rename_i c c' rr act
    intro v hv
    obtain ⟨n0, hn0mem, hn0s, hn0c⟩ := hinv.visPushed c v hv
    have hn2 : n0 ∈ (st.frontier : Multiset Node) +
        (st.popsG.map Prod.snd : Multiset Node) := by
      rw [hinv.mset]
      simpa using hn0mem
    rcases Multiset.mem_add.mp hn2 with hmem | hmem
    · refine ⟨n0, by simpa using hmem, rr + 1, ?_, by omega⟩
      rw [hn0s]
      exact .step hnb hr
    · have hmem2 : n0 ∈ st.popsG.map Prod.snd := by simpa using hmem
      obtain ⟨pr, hprmem, hpreq⟩ := List.mem_map.mp hmem2
      obtain ⟨hne, hcond⟩ := hinv.popsOK pr hprmem
      have hnb2 : (act, c') ∈ m.neighbors (pr.2 : Node).state := by
        rw [hpreq, hn0s]
        exact hnb
      obtain ⟨v', hv', hle'⟩ := hcond (act, c') hnb2
      obtain ⟨n, hnfr, rn, hrn, hb⟩ := ih v' hv'
      refine ⟨n, hnfr, rn, hrn, ?_⟩
      rw [hpreq] at hle'
      omega

/-! ### Soundness of the loop -/

theorem solveLoop_sound (m : Maze) (alg : String) :
    ∀ (fuel : Nat) (st : SState) (res : SolveRes),
      SInv m st → solveLoop m alg fuel st = some res →
      (∀ o, res = .found o → FoundSpec m o) ∧
      (∀ v p pq, res = .noPath v p pq → NoPathSpec m v p) := by
  intro fuel
  induction fuel with
  | zero =>
    intro st res hinv h
    cases h
  | succ fuel ih =>
    intro st res hinv h
    rw [solveLoop] at h
    cases hpop : heappop st.frontier with
    | none =>
      rw [hpop] at h
      have hres : SolveRes.noPath st.allVisited st.pushesG st.popsG = res := by
        injection h
      subst hres
      constructor
      · intro o ho
        cases ho
      · intro v p pq hnp
        injection hnp with h1 h2 h3
        subst h1
        subst h2
        constructor
        · intro k hk
          have hfront : st.frontier = [] := heappop_none _ hpop
          obtain ⟨n, hnmem, _⟩ := visited_frontier_witness m st hinv m.start k
            (reachTo_start m k hk) 0 hinv.visStart
          rw [hfront] at hnmem
          cases hnmem
        · exact hinv.allVis
    | some pr =>
      obtain ⟨cur, rest⟩ := pr
      rw [hpop] at h
      dsimp only at h
      by_cases hg : cur.state = m.goal
      · rw [if_pos hg] at h
        have hres : SolveRes.found
            { path := m.start :: ancStates cur
              actions := ancActions cur
              allVisited := st.allVisited
              pushesG := st.pushesG
              popsG := st.popsG ++ [(st.frontier, cur)] } = res := by
          injection h
        subst hres
        constructor
        · intro o ho
          injection ho with ho2
          subst ho2
          have hcurmem : cur ∈ st.pushesG :=
            mem_pushes_of_mem_frontier m st hinv.toSInvCore cur
              (heappop_root_mem _ _ _ hpop)
          obtain ⟨hvc, hnd, hdom⟩ := hinv.pushedOK cur hcurmem
          refine ⟨cur, hvc, hg, rfl, rfl, hinv.allVis, ?_, ?_⟩
          · -- every path cell is in the visited set
            intro c hc
            dsimp only at hc ⊢
            have hc2 : c ∈ chainCells cur := by
              rw [chainCells_of_valid m cur hvc]
              exact hc
            obtain ⟨a, ham, has⟩ := chainCells_mem_ex cur c hc2
            obtain ⟨w, hw, _⟩ := hdom a ham
            rw [has] at hw
            obtain ⟨n, hnmem, hns, _⟩ := hinv.visPushed c w hw
            exact (hinv.allVis c).mpr ⟨n, hnmem, hns⟩
          · -- optimality of the popped goal node
            intro k hk
            obtain ⟨n, hnfr, rn, hrn, hb⟩ := visited_frontier_witness m st hinv
              m.start k (reachTo_start m k hk) 0 hinv.visStart
            have hmin := heappop_min st.frontier cur rest hinv.heapInv hpop n hnfr
            have hnpush : n ∈ st.pushesG :=
              mem_pushes_of_mem_frontier m st hinv.toSInvCore n hnfr
            have hnh : n.heuristic = m.heuristic n.state :=
              validChain_heuristic m n (hinv.pushedOK n hnpush).1
            have hnhle : m.heuristic n.state ≤ rn := heuristic_le_reachTo m _ _ hrn
            have hch : cur.heuristic = m.heuristic cur.state :=
              validChain_heuristic m cur hvc
            have hch0 : cur.heuristic = 0 := by
              rw [hch, hg, heuristic_goal_zero]
            have hkey1 : cur.key = cur.cost := by
              simp [Node.key, hch0]
            have hkey2 : n.key = n.cost + n.heuristic := rfl
            rw [hkey1, hkey2] at hmin
            omega
        · intro v p pq hnp
          cases hnp
      · rw [if_neg hg] at h
        obtain ⟨hinv2, _⟩ := solveLoop_inv_step m alg st cur rest hinv hpop hg
        exact ih _ res hinv2 h

/-! ### The initial state satisfies the invariant -/

theorem initState_SInv (m : Maze) : SInv m (initState m) := by
  have hfr : (initState m).frontier = [Node.start m.start 0 (m.heuristic m.start)] := rfl
  have hpush : (initState m).pushesG = [Node.start m.start 0 (m.heuristic m.start)] := rfl
  have hpops : (initState m).popsG = [] := rfl
  have hav : (initState m).allVisited = [m.start] := rfl
  have hvis : (initState m).visited = fun s => if s = m.start then some 0 else none := rfl
  refine ⟨⟨?_, ?_, ?_, ?_, ?_, ?_, ?_⟩, ?_⟩
  · rw [hfr, hpush, hpops]
    simp
  · rw [hpush]
    intro n hn
    rw [List.mem_singleton] at hn
    subst hn
    refine ⟨⟨rfl, rfl, rfl⟩, by rw [chainCells]; exact List.nodup_singleton _, ?_⟩
    intro a ha
    rw [Node.mem] at ha
    subst ha
    refine ⟨0, ?_, le_refl _⟩
    rw [hvis]
    simp [Node.state]
  · intro s v hv
    rw [hvis] at hv
    dsimp only at hv
    by_cases hs : s = m.start
    · subst hs
      rw [if_pos rfl] at hv
      have hv0 : v = 0 := by injection hv with h2; exact h2.symm
      subst hv0
      exact ⟨Node.start m.start 0 (m.heuristic m.start),
        by rw [hpush]; exact List.mem_singleton.mpr rfl, by simp, by simp⟩
    · rw [if_neg hs] at hv
      cases hv
  · intro s
    rw [hav, hpush]
    constructor
    · intro hs
      rw [List.mem_singleton] at hs
      exact ⟨Node.start m.start 0 (m.heuristic m.start),
        List.mem_singleton.mpr rfl, by simp [hs]⟩
    · rintro ⟨n, hn, hns⟩
      rw [List.mem_singleton] at hn
      subst hn
      rw [List.mem_singleton]
      simp at hns
      exact hns.symm
  · rw [hfr]
    intro j hj0 hjlen
    simp at hjlen
    exact absurd hjlen (by omega)
  · rw [hvis]
    simp
  · rw [hpush]
    exact List.mem_singleton.mpr rfl
  · rw [hpops]
    intro pr hpr
    cases hpr

/-! ### Termination: the potential strictly decreases each iteration -/

theorem mem_cellsList (m : Maze) (c : Int × Int) :
    c ∈ cellsList m ↔
      0 ≤ c.1 ∧ c.1 < (m.height : Int) ∧ 0 ≤ c.2 ∧ c.2 < (m.width : Int) := by
  rw [cellsList]
  simp only [List.mem_flatMap, List.mem_map, List.mem_range]
  constructor
  · rintro ⟨i, hi, j, hj, hc⟩
    rw [← hc]
    dsimp only
    refine ⟨by omega, by omega, by omega, by omega⟩
  · rintro ⟨h1, h2, h3, h4⟩
    refine ⟨c.1.toNat, by omega, c.2.toNat, by omega, ?_⟩
    rw [Int.toNat_of_nonneg h1, Int.toNat_of_nonneg h3]

theorem nodup_cellsList (m : Maze) : (cellsList m).Nodup := by
  rw [cellsList, List.nodup_flatMap]
  constructor
  · intro i hi
    refine List.Nodup.map ?_ (List.nodup_range _)
    intro a b hab
    have h2 := congrArg Prod.snd hab
    simpa using h2
  · refine (List.pairwise_lt_range _).imp ?_
    intro a b hab x hxa hxb
    rw [List.mem_map] at hxa hxb
    obtain ⟨ja, hja, hxa⟩ := hxa
    obtain ⟨jb, hjb, hxb⟩ := hxb
    have h1 : x.1 = (a : Int) := by rw [← hxa]
    have h2 : x.1 = (b : Int) := by rw [← hxb]
    rw [h1] at h2
    have hableq : a = b := by exact_mod_cast h2
    omega

theorem length_cellsList (m : Maze) : (cellsList m).length = m.height * m.width := by
  rw [cellsList, List.length_flatMap]
  have hmap : List.map (List.length ∘ fun (i : Nat) =>
      (List.range m.width).map (fun (j : Nat) => ((i : Int), (j : Int))))
      (List.range m.height) = List.map (fun _ => m.width) (List.range m.height) := by
    apply List.map_congr_left
    intro i _
    simp [Function.comp]
  rw [hmap, List.map_const', List.sum_replicate, List.length_range, smul_eq_mul]

theorem sum_map_update (l : List (Int × Int)) (hl : l.Nodup) (c : Int × Int)
    (hc : c ∈ l) (f g : (Int × Int) → Nat) (hfg : ∀ x, x ≠ c → f x = g x) :
    (l.map f).sum + g c = (l.map g).sum + f c := by
  induction l with
  | nil => cases hc
  | cons x xs ih =>
    rcases List.mem_cons.mp hc with hx | hx
    · subst hx
      have hnc : c ∉ xs := (List.nodup_cons.mp hl).1
      have hmaps : xs.map f = xs.map g := by
        apply List.map_congr_left
        intro y hy
        exact hfg y (fun he => hnc (he ▸ hy))
      rw [List.map_cons, List.map_cons, List.sum_cons, List.sum_cons, hmaps]
      omega
    · have hxc : x ≠ c := fun he => (List.nodup_cons.mp hl).1 (he ▸ hx)
      rw [List.map_cons, List.map_cons, List.sum_cons, List.sum_cons, hfg x hxc]
      have hih := ih (List.nodup_cons.mp hl).2 hx
      omega

theorem chainCells_subset_cells (m : Maze) (hwf : m.WF) :
    ∀ n, Node.ValidChain m n → ∀ c ∈ chainCells n, c ∈ cellsList m := by
  intro n
  induction n with
  | start s ct h =>
    intro hv c hc
    rw [chainCells, List.mem_singleton] at hc
    subst hc
    rw [hv.1, mem_cellsList]
    exact ⟨hwf.startRow0, hwf.startRow, hwf.startCol0, hwf.startCol⟩
  | child s p act ct h ihp =>
    intro hv c hc
    rw [chainCells, List.mem_append] at hc
    rcases hc with hc | hc
    · exact ihp hv.1 c hc
    · rw [List.mem_singleton] at hc
      subst hc
      have hnb := hv.2.1
      rw [Maze.neighbors, List.mem_filter] at hnb
      have hb := hnb.2
      rw [Maze.inBoundsOpen] at hb
      simp only [Bool.and_eq_true, decide_eq_true_eq] at hb
      rw [mem_cellsList]
      exact ⟨hb.1.1.1.1, hb.1.1.1.2, hb.1.1.2, hb.1.2⟩

theorem node_cost_bound (m : Maze) (hwf : m.WF) (n : Node)
    (hv : Node.ValidChain m n) (hnd : (chainCells n).Nodup) :
    n.cost + 1 ≤ m.height * m.width := by
  have hlen := chainCells_length m n hv
  have hsub : chainCells n ⊆ cellsList m := fun c hc =>
    chainCells_subset_cells m hwf n hv c hc
  have hle := (hnd.subperm hsub).length_le
  rw [hlen, length_cellsList] at hle
  exact hle

theorem neighbors_mem_cellsList (m : Maze) (c : Int × Int) :
    ∀ q ∈ m.neighbors c, q.2 ∈ cellsList m := by
  intro q hq
  rw [Maze.neighbors, List.mem_filter] at hq
  have hb := hq.2
  rw [Maze.inBoundsOpen] at hb
  simp only [Bool.and_eq_true, decide_eq_true_eq] at hb
  rw [mem_cellsList]
  exact ⟨hb.1.1.1.1, hb.1.1.1.2, hb.1.1.2, hb.1.2⟩

theorem sum_phi_update (m : Maze) (st : SState) (c : Int × Int) (hc : c ∈ cellsList m)
    (w : Nat) (stN : SState)
    (hvN : stN.visited = fun x => if x = c then some w else st.visited x) :
    ((cellsList m).map (phiCell m stN)).sum + phiCell m st c =
      ((cellsList m).map (phiCell m st)).sum + w := by
  have hfg : ∀ x, x ≠ c → phiCell m stN x = phiCell m st x := by
    intro x hx
    simp only [phiCell, hvN]
    rw [if_neg hx]
  have h1 := sum_map_update (cellsList m) (nodup_cellsList m) c hc
    (phiCell m stN) (phiCell m st) hfg
  have h2 : phiCell m stN c = w := by
    simp only [phiCell, hvN]
    simp
  rw [h2] at h1
  exact h1

theorem expandOne_potential (m : Maze) (alg : String) (cur : Node) (st : SState)
    (hcost : cur.cost + 1 ≤ m.height * m.width)
    (step : String × (Int × Int)) (hstep : step ∈ m.neighbors cur.state) :
    potential m (expandOne m alg cur st step) ≤ potential m st := by
  by_cases himp : st.visited step.2 = none ∨
      ∃ v, st.visited step.2 = some v ∧ cur.cost + 1 < v
  · have hcell : step.2 ∈ cellsList m :=
      neighbors_mem_cellsList m cur.state step hstep
    have hphi : cur.cost + 2 ≤ phiCell m st step.2 := by
      rcases himp with hv | ⟨v, hv, hlt⟩
      · simp only [phiCell, hv]
        omega
      · simp only [phiCell, hv]
        omega
    have hupd := expandOne_update m alg cur st step himp
    have hsum := sum_phi_update m st step.2 hcell (cur.cost + 1)
      (expandOne m alg cur st step) (by rw [hupd])
    have hlen : (expandOne m alg cur st step).frontier.length =
        st.frontier.length + 1 := by
      rw [hupd]
      exact heappush_length _ _
    rw [potential, potential, hlen]
    omega
  · rcases hvv : st.visited step.2 with _ | v
    · exact absurd (Or.inl hvv) himp
    · have hge : ¬ cur.cost + 1 < v := fun hlt => himp (Or.inr ⟨v, hvv, hlt⟩)
      rw [expandOne_stay m alg cur st step v hvv hge]

theorem expand_fold_potential (m : Maze) (alg : String) (cur : Node)
    (hcost : cur.cost + 1 ≤ m.height * m.width) :
    ∀ (steps : List (String × (Int × Int))) (st : SState),
      (∀ q ∈ steps, q ∈ m.neighbors cur.state) →
      potential m (steps.foldl (expandOne m alg cur) st) ≤ potential m st := by
  intro steps
  induction steps with
  | nil =>
    intro st _
    exact le_refl _
  | cons x xs ih =>
    intro st hsteps
    rw [List.foldl_cons]
    exact le_trans
      (ih (expandOne m alg cur st x) (fun q hq => hsteps q (List.mem_cons_of_mem _ hq)))
      (expandOne_potential m alg cur st hcost x (hsteps x (List.mem_cons_self _ _)))

theorem solveLoop_step_potential (m : Maze) (hwf : m.WF) (alg : String) (st : SState)
    (hinv : SInv m st) (cur : Node) (rest : List Node)
    (hpop : heappop st.frontier = some (cur, rest)) :
    potential m ((m.neighbors cur.state).foldl (expandOne m alg cur)
        { st with frontier := rest, popsG := st.popsG ++ [(st.frontier, cur)] }) + 1 ≤
      potential m st := by
  have hcur : cur ∈ st.pushesG :=
    mem_pushes_of_mem_frontier m st hinv.toSInvCore cur (heappop_root_mem _ _ _ hpop)
  have hok := hinv.pushedOK cur hcur
  have hcost : cur.cost + 1 ≤ m.height * m.width :=
    node_cost_bound m hwf cur hok.1 hok.2.1
  have hlen := (heappop_spec st.frontier cur rest hpop).2.1
  have hfold := expand_fold_potential m alg cur hcost (m.neighbors cur.state)
    { st with frontier := rest, popsG := st.popsG ++ [(st.frontier, cur)] }
    (fun q hq => hq)
  have hmid : potential m
      { st with frontier := rest, popsG := st.popsG ++ [(st.frontier, cur)] } =
      rest.length + ((cellsList m).map (phiCell m st)).sum := rfl
  have hpot : potential m st =
      st.frontier.length + ((cellsList m).map (phiCell m st)).sum := rfl
  omega

theorem solveLoop_total (m : Maze) (hwf : m.WF) (alg : String) :
    ∀ (fuel : Nat) (st : SState), SInv m st → potential m st < fuel →
      (solveLoop m alg fuel st).isSome := by
  intro fuel
  induction fuel with
  | zero =>
    intro st _ hp
    omega
  | succ fuel ih =>
    intro st hinv hp
    rw [solveLoop]
    cases hpop : heappop st.frontier with
    | none =>
      rfl
    | some pr =>
      obtain ⟨cur, rest⟩ := pr
      dsimp only
      by_cases hg : cur.state = m.goal
      · rw [if_pos hg]
        rfl
      · rw [if_neg hg]
        apply ih
        · exact (solveLoop_inv_step m alg st cur rest hinv hpop hg).1
        · have hdec := solveLoop_step_potential m hwf alg st hinv cur rest hpop
          omega

theorem phi_init_le (m : Maze) (c : Int × Int) :
    phiCell m (initState m) c ≤ m.height * m.width + 1 := by
  by_cases hc0 : c = m.start
  · simp [phiCell, initState, hc0]
  · simp [phiCell, initState, hc0]

theorem initState_potential (m : Maze) : potential m (initState m) < fuelBound m := by
  have hlen : (initState m).frontier.length = 1 := by
    show (heappush [] (Node.start m.start 0 (m.heuristic m.start))).length = 1
    rw [heappush_length]
    rfl
  have hb : ∀ x ∈ (cellsList m).map (phiCell m (initState m)),
      x ≤ m.height * m.width + 1 := by
    intro x hx
    rw [List.mem_map] at hx
    obtain ⟨c, _, hxc⟩ := hx
    rw [← hxc]
    exact phi_init_le m c
  have h1 := List.sum_le_card_nsmul _ _ hb
  rw [List.length_map, length_cellsList, smul_eq_mul] at h1
  rw [potential, hlen, fuelBound]
  omega

theorem solveCore_total (m : Maze) (hwf : m.WF) (alg : String) :
    (m.solveCore alg).isSome := by
  rw [Maze.solveCore]
  exact solveLoop_total m hwf alg (fuelBound m) (initState m) (initState_SInv m)
    (initState_potential m)

/-! ### From loop soundness and totality to facts about `Maze.solve` -/

theorem solveCore_found_spec (m : Maze) (alg : String) (o : SolveOutcome)
    (hc : m.solveCore alg = some (.found o)) : FoundSpec m o := by
  rw [Maze.solveCore] at hc
  exact (solveLoop_sound m alg (fuelBound m) (initState m) (.found o)
    (initState_SInv m) hc).1 o rfl

theorem solveCore_noPath_spec (m : Maze) (alg : String)
    (v : List (Int × Int)) (p : List Node) (pq : List (List Node × Node))
    (hc : m.solveCore alg = some (.noPath v p pq)) : NoPathSpec m v p := by
  rw [Maze.solveCore] at hc
  exact (solveLoop_sound m alg (fuelBound m) (initState m) (.noPath v p pq)
    (initState_SInv m) hc).2 v p pq rfl

theorem solve_ok_core (m : Maze) (alg : String)
    (hmem : strLower alg ∈ (["a*", "greedy"] : List String))
    (path : List (Int × Int)) (actions : List String) (visited : List (Int × Int))
    (hres : m.solve alg = some (.ok ((path, actions), visited))) :
    ∃ o, m.solveCore alg = some (.found o) ∧
      o.path = path ∧ o.actions = actions ∧ o.allVisited = visited := by
  rw [Maze.solve, if_neg (not_not_intro hmem)] at hres
  cases hc : m.solveCore alg with
  | none =>
    rw [hc] at hres
    cases hres
  | some r =>
    rw [hc] at hres
    cases r with
    | found o =>
      simp only [Option.map_some', Option.some.injEq, Except.ok.injEq,
        Prod.mk.injEq] at hres
      exact ⟨o, rfl, hres.1.1, hres.1.2, hres.2⟩
    | noPath v p pq =>
      simp at hres

theorem chainCells_not_wall (m : Maze) (hwf : m.WF) :
    ∀ n, Node.ValidChain m n → ∀ c ∈ chainCells n, m.cellAt c ≠ '#' := by
  intro n
  induction n with
  | start s ct h =>
    intro hv c hc
    rw [chainCells, List.mem_singleton] at hc
    subst hc
    rw [hv.1, hwf.startCell]
    decide
  | child s p act ct h ihp =>
    intro hv c hc
    rw [chainCells, List.mem_append] at hc
    rcases hc with hc | hc
    · exact ihp hv.1 c hc
    · rw [List.mem_singleton] at hc
      subst hc
      have hnb := hv.2.1
      rw [Maze.neighbors, List.mem_filter] at hnb
      have hb := hnb.2
      rw [Maze.inBoundsOpen] at hb
      simp only [Bool.and_eq_true, decide_eq_true_eq] at hb
      exact hb.2

/-- C2: on every well-formed solvable grid (some wall-free 4-connected route
reaches the goal), `solve` with the A* selector succeeds and the number of
steps of the returned path (its length minus the start cell) is exactly the
true shortest-path step count. -/
theorem c2_astar_optimal (m : Maze) (hwf : m.WF) (k : Nat)
    (hreach : ReachN m k m.goal) :
    ∃ path actions visited,
      m.solve "a*" = some (.ok ((path, actions), visited)) ∧
      ReachN m (path.length - 1) m.goal ∧
      (∀ j, ReachN m j m.goal → path.length - 1 ≤ j) := by
  have htot := solveCore_total m hwf "a*"
  cases hc : m.solveCore "a*" with
  | none =>
    rw [hc] at htot
    cases htot
  | some r =>
    cases r with
    | noPath v p pq =>
      exact absurd hreach ((solveCore_noPath_spec m "a*" v p pq hc).1 k)
    | found o =>
      obtain ⟨gn, hgv, hgs, hpath, hacts, hvis, hsub, hopt⟩ :=
        solveCore_found_spec m "a*" o hc
      have hsolve : m.solve "a*" = some (.ok ((o.path, o.actions), o.allVisited)) := by
        rw [Maze.solve, if_neg (by decide), hc, Option.map_some']
      have hlen : o.path.length = gn.cost + 1 := by
        rw [hpath, ← chainCells_of_valid m gn hgv, chainCells_length m gn hgv]
      refine ⟨o.path, o.actions, o.allVisited, hsolve, ?_, ?_⟩
      · rw [hlen]
        simpa using (hgs ▸ valid_reachN m gn hgv)
      · intro j hj
        have hle := hopt j hj
        rw [hlen]
        omega

/-- Witness for C2: the 1×2 grid `AB` is well-formed and solvable in one
step, and the theorem applies to it. -/
theorem c2_witness :
    mzAB.WF ∧ ReachN mzAB 1 mzAB.goal ∧
      ∃ path actions visited,
        mzAB.solve "a*" = some (.ok ((path, actions), visited)) ∧
        ReachN mzAB (path.length - 1) mzAB.goal ∧
        (∀ j, ReachN mzAB j mzAB.goal → path.length - 1 ≤ j) :=
  ⟨by constructor <;> decide,
    ReachN.succ ReachN.zero
      (show ("right", ((0 : Int), (1 : Int))) ∈ mzAB.neighbors mzAB.start by decide),
    c2_astar_optimal mzAB (by constructor <;> decide) 1
      (ReachN.succ ReachN.zero
        (show ("right", ((0 : Int), (1 : Int))) ∈ mzAB.neighbors mzAB.start by decide))⟩

/-- C6: whenever `solve` succeeds (on a well-formed grid with a valid
selector), the returned path starts at the grid's start, ends at the goal,
each consecutive pair of its states is grid-adjacent per `neighbors`, and
no state of the path is a wall cell. -/
theorem c6_path_valid (m : Maze) (hwf : m.WF) (alg : String)
    (hmem : strLower alg ∈ (["a*", "greedy"] : List String))
    (path : List (Int × Int)) (actions : List String) (visited : List (Int × Int))
    (hres : m.solve alg = some (.ok ((path, actions), visited))) :
    path.head? = some m.start ∧ path.getLast? = some m.goal ∧
      List.Chain' (fun a b => ∃ act, (act, b) ∈ m.neighbors a) path ∧
      ∀ c ∈ path, m.cellAt c ≠ '#' := by
  obtain ⟨o, hc, hop, hoa, hov⟩ := solve_ok_core m alg hmem path actions visited hres
  obtain ⟨gn, hgv, hgs, hpath, _, _, _, _⟩ := solveCore_found_spec m alg o hc
  have hpp : path = m.start :: ancStates gn := by rw [← hop, hpath]
  obtain ⟨hchain, hlast⟩ := valid_chain_adj m gn hgv
  subst hpp
  refine ⟨rfl, ?_, hchain, ?_⟩
  · rw [hlast, hgs]
  · intro c hcp
    rw [← chainCells_of_valid m gn hgv] at hcp
    exact chainCells_not_wall m hwf gn hgv c hcp

/-- Witness for C6 on the concrete run of the 1×2 grid `AB`. -/
theorem c6_witness :
    mzAB.WF ∧ strLower "a*" ∈ (["a*", "greedy"] : List String) ∧
      mzAB.solve "a*" = some (.ok
        ((([((0 : Int), (0 : Int)), (0, 1)]), (["right"])), [((0 : Int), (0 : Int)), (0, 1)])) ∧
      (([((0 : Int), (0 : Int)), (0, 1)]).head? = some mzAB.start ∧
        ([((0 : Int), (0 : Int)), (0, 1)]).getLast? = some mzAB.goal ∧
        List.Chain' (fun a b => ∃ act, (act, b) ∈ mzAB.neighbors a)
          [((0 : Int), (0 : Int)), (0, 1)] ∧
        ∀ c ∈ [((0 : Int), (0 : Int)), (0, 1)], mzAB.cellAt c ≠ '#') :=
  ⟨by constructor <;> decide, by decide, by decide,
    c6_path_valid mzAB (by constructor <;> decide) "a*" (by decide)
      [((0 : Int), (0 : Int)), (0, 1)] ["right"] [((0 : Int), (0 : Int)), (0, 1)]
      (by decide)⟩

/-- C7: on a well-formed grid with a valid selector, `solve` fails with
`NoPathError` exactly when no wall-free 4-connected route from start reaches
the goal, and `NoPathError` is the only error the search itself can
return. -/
theorem c7_no_path_iff (m : Maze) (hwf : m.WF) (alg : String)
    (hmem : strLower alg ∈ (["a*", "greedy"] : List String)) :
    (m.solve alg = some (.error .noPath) ↔ ¬ ∃ k, ReachN m k m.goal) ∧
      (∀ e, m.solve alg = some (.error e) → e = .noPath) := by
  have htot := solveCore_total m hwf alg
  cases hc : m.solveCore alg with
  | none =>
    rw [hc] at htot
    cases htot
  | some r =>
    cases r with
    | found o =>
      obtain ⟨gn, hgv, hgs, hpath, hacts, hvis, hsub, hopt⟩ :=
        solveCore_found_spec m alg o hc
      have hsolve : m.solve alg = some (.ok ((o.path, o.actions), o.allVisited)) := by
        rw [Maze.solve, if_neg (not_not_intro hmem), hc, Option.map_some']
      have hreach : ∃ k, ReachN m k m.goal := ⟨gn.cost, hgs ▸ valid_reachN m gn hgv⟩
      constructor
      · apply iff_of_false
        · intro h
          rw [hsolve] at h
          simp at h
        · exact not_not_intro hreach
      · intro e he
        rw [hsolve] at he
        simp at he
    | noPath v p pq =>
      have hspec := solveCore_noPath_spec m alg v p pq hc
      have hsolve : m.solve alg = some (.error .noPath) := by
        rw [Maze.solve, if_neg (not_not_intro hmem), hc, Option.map_some']
      constructor
      · apply iff_of_true hsolve
        rintro ⟨k, hk⟩
        exact hspec.1 k hk
      · intro e he
        rw [hsolve] at he
        injection he with h1
        injection h1 with h2
        exact h2.symm

/-- Witness for C7 on the walled 1×3 grid `A#B` with the A* selector. -/
theorem c7_witness :
    mzWall.WF ∧ strLower "a*" ∈ (["a*", "greedy"] : List String) ∧
      ((mzWall.solve "a*" = some (.error .noPath) ↔
          ¬ ∃ k, ReachN mzWall k mzWall.goal) ∧
        (∀ e, mzWall.solve "a*" = some (.error e) → e = .noPath)) :=
  ⟨by constructor <;> decide, by decide,
    c7_no_path_iff mzWall (by constructor <;> decide) "a*" (by decide)⟩

/-- C8: whenever `solve` succeeds (well-formed grid, valid selector), the
visited set it returns is exactly the set of states of the nodes ever
pushed into the frontier during that call, it contains the start, and it
contains every state of the returned path. -/
theorem c8_visited_is_pushed (m : Maze) (hwf : m.WF) (alg : String)
    (hmem : strLower alg ∈ (["a*", "greedy"] : List String))
    (path : List (Int × Int)) (actions : List String) (visited : List (Int × Int))
    (hres : m.solve alg = some (.ok ((path, actions), visited))) :
    (∀ s, s ∈ visited ↔ ∃ n ∈ resPushes (m.solveCore alg), Node.state n = s) ∧
      m.start ∈ visited ∧ ∀ c ∈ path, c ∈ visited := by
  obtain ⟨o, hc, hop, hoa, hov⟩ := solve_ok_core m alg hmem path actions visited hres
  obtain ⟨gn, hgv, hgs, hpath, hacts, hvis, hsub, hopt⟩ :=
    solveCore_found_spec m alg o hc
  have hrp : resPushes (m.solveCore alg) = o.pushesG := by
    rw [hc]
    rfl
  refine ⟨?_, ?_, ?_⟩
  · intro s
    rw [← hov, hrp]
    exact hvis s
  · rw [← hov]
    apply hsub
    rw [hpath]
    exact List.mem_cons_self _ _
  · intro c hcp
    rw [← hov]
    exact hsub c (by rw [hop]; exact hcp)
/-- Witness for C8 on the concrete run of the 1×2 grid `AB`. -/
theorem c8_witness :
    mzAB.WF ∧ strLower "a*" ∈ (["a*", "greedy"] : List String) ∧
      mzAB.solve "a*" = some (.ok
        ((([((0 : Int), (0 : Int)), (0, 1)]), (["right"])), [((0 : Int), (0 : Int)), (0, 1)])) ∧
      ((∀ s, s ∈ [((0 : Int), (0 : Int)), (0, 1)] ↔
          ∃ n ∈ resPushes (mzAB.solveCore "a*"), Node.state n = s) ∧
        mzAB.start ∈ [((0 : Int), (0 : Int)), (0, 1)] ∧
        ∀ c ∈ [((0 : Int), (0 : Int)), (0, 1)], c ∈ [((0 : Int), (0 : Int)), (0, 1)]) :=
  ⟨by constructor <;> decide, by decide, by decide,
    c8_visited_is_pushed mzAB (by constructor <;> decide) "a*" (by decide)
      [((0 : Int), (0 : Int)), (0, 1)] ["right"] [((0 : Int), (0 : Int)), (0, 1)]
      (by decide)⟩
